import Mathlib

/-!
Verification of the mini-lsm read-path core: a shallow embedding of the
merge iterator, block encoding, SST lookup and memtable iterator from
`src/mini-lsm-starter`, together with proofs of the specified properties.

Keys and values are byte strings, modelled as `List Nat` with every
element below 256.  Rust's lexicographic `Ord` on byte slices is
modelled by `cmpB`; `usize` comparison by `cmpN`.
-/

abbrev Bytes := List Nat

/-- Lexicographic three-way comparison on byte strings, as Rust's
`Ord for &[u8]` computes it. -/
def cmpB : Bytes → Bytes → Ordering
  | [], [] => .eq
  | [], _ :: _ => .lt
  | _ :: _, [] => .gt
  | a :: as, b :: bs =>
    if a < b then .lt else if b < a then .gt else cmpB as bs

/-- Strict lexicographic order on byte strings. -/
def ltB (a b : Bytes) : Bool := cmpB a b == .lt

/-- Non-strict lexicographic order on byte strings. -/
def leB (a b : Bytes) : Bool := cmpB a b != .gt

/-- Three-way comparison on naturals, as Rust's `Ord for usize`. -/
def cmpN (i j : Nat) : Ordering :=
  if i < j then .lt else if j < i then .gt else .eq

/-! ## UTF-8 validation

`MergeIterator::next` passes keys and values through `String::from_utf8`
and propagates the error with `?`.  `isUtf8` models Rust's UTF-8
validity check (RFC 3629 ranges). -/

/-- A UTF-8 continuation byte: `0x80..=0xBF`. -/
def isCont (b : Nat) : Bool := 128 ≤ b && b < 192

/-- Whether a byte string is valid UTF-8, exactly as
`String::from_utf8` decides it. -/
def isUtf8 : List Nat → Bool
  | [] => true
  | b :: rest =>
    if b < 128 then isUtf8 rest
    else if b < 194 then false
    else if b < 224 then
      match rest with
      | c1 :: r => isCont c1 && isUtf8 r
      | [] => false
    else if b = 224 then
      match rest with
      | c1 :: c2 :: r => (160 ≤ c1 && c1 < 192) && isCont c2 && isUtf8 r
      | _ => false
    else if b < 237 then
      match rest with
      | c1 :: c2 :: r => isCont c1 && isCont c2 && isUtf8 r
      | _ => false
    else if b = 237 then
      match rest with
      | c1 :: c2 :: r => (128 ≤ c1 && c1 < 160) && isCont c2 && isUtf8 r
      | _ => false
    else if b < 240 then
      match rest with
      | c1 :: c2 :: r => isCont c1 && isCont c2 && isUtf8 r
      | _ => false
    else if b = 240 then
      match rest with
      | c1 :: c2 :: c3 :: r =>
        (144 ≤ c1 && c1 < 192) && isCont c2 && isCont c3 && isUtf8 r
      | _ => false
    else if b < 244 then
      match rest with
      | c1 :: c2 :: c3 :: r => isCont c1 && isCont c2 && isCont c3 && isUtf8 r
      | _ => false
    else if b = 244 then
      match rest with
      | c1 :: c2 :: c3 :: r =>
        (128 ≤ c1 && c1 < 144) && isCont c2 && isCont c3 && isUtf8 r
      | _ => false
    else false

/-! ## Child iterators and heap wrappers

A child `StorageIterator` whose `next` never fails is modelled by the
list of its remaining entries: `is_valid` is non-emptiness, `key`/`value`
read the head, `next` drops the head.  (`BlockIterator`,
`SsTableIterator` and `MemTableIterator` all return the empty slice as
`key()` when invalid, which `headKey` mirrors.)  A `HeapWrapper` pairs a
source index with a child. -/

abbrev Child := List (Bytes × Bytes)

abbrev W := Nat × Child

/-- Model of `key()` of a child iterator: head key, or empty when exhausted. -/
def headKey (c : Child) : Bytes :=
  match c with
  | [] => []
  | e :: _ => e.1

/-- Model of `value()` of a child iterator: head value, or empty when exhausted. -/
def headVal (c : Child) : Bytes :=
  match c with
  | [] => []
  | e :: _ => e.2

/-- All keys a child iterator will still yield. -/
def keysOf (c : Child) : List Bytes := c.map Prod.fst

/-- The entries of a child are strictly ascending by key and every key
is non-empty (the data model's well-formedness for a source). -/
def wfChild : Child → Bool
  | [] => true
  | (k, _) :: tl =>
    (!k.isEmpty) &&
      (match tl with
       | [] => true
       | (k2, _) :: _ => ltB k k2) && wfChild tl

/-- Model of `HeapWrapper::cmp` without the final `.reverse()`: compare keys,
break ties on the source index.  The `BinaryHeap` is a max-heap of the
reversed order, so its pop yields the minimum of `cmpW`. -/
def cmpW (a b : W) : Ordering :=
  (cmpB (headKey a.2) (headKey b.2)).then (cmpN a.1 b.1)

/-- Wrapper `a` precedes-or-equals `b` in the heap's pop order. -/
def wLe (a b : W) : Bool := cmpW a b != .gt

/-! ## The binary heap, as a list with minimum extraction

`BinaryHeap` over the reversed `HeapWrapper` order is observed only
through `push`, `pop` and `peek`; it is therefore modelled by a list
whose `popMin` removes the leftmost element that is minimal in the
`cmpW` order (pop of the max-heap of the reversed order).  In every
reachable state the source indices are pairwise distinct, so the order
has no ties and the choice of representative is immaterial. -/

def popMin : List W → Option (W × List W)
  | [] => none
  | w :: ws =>
    match popMin ws with
    | none => some (w, [])
    | some (m, r) => if wLe w m then some (w, ws) else some (m, w :: r)

/-! ## MergeIterator -/

/-- The state of a `MergeIterator`: the remaining heap and the split-out
`current` wrapper. -/
structure MergeIter where
  iters : List W
  current : Option W
  deriving Repr, DecidableEq

/-- All wrappers owned by the merge iterator. -/
def allW (m : MergeIter) : List W :=
  (match m.current with | some c => [c] | none => []) ++ m.iters

/-- Model of `MergeIterator::create`: filter out invalid children, tag each with
its index, heap them, and pop the top into `current`. -/
def MergeIterator.create (srcs : List Child) : MergeIter :=
  if srcs.isEmpty then ⟨[], none⟩
  else
    let ws := (srcs.filter (fun c => !c.isEmpty)).enum
    match popMin ws with
    | some (w, rest) => ⟨rest, some w⟩
    | none => ⟨[], none⟩

/-- Model of `MergeIterator::is_valid`: a current wrapper exists and its child
iterator is valid. -/
def MergeIterator.isValid (m : MergeIter) : Bool :=
  match m.current with
  | some c => !c.2.isEmpty
  | none => false

/-- Model of `MergeIterator::key`, which unwraps `current` (`none` = panic). -/
def MergeIterator.keyOf (m : MergeIter) : Option Bytes :=
  m.current.map (fun c => headKey c.2)

/-- Model of `MergeIterator::value`, which unwraps `current` (`none` = panic). -/
def MergeIterator.valueOf (m : MergeIter) : Option Bytes :=
  m.current.map (fun c => headVal c.2)

/-- Result of the drain loop inside `MergeIterator::next`. -/
inductive LoopRes where
  | ok (heap : List W)
  | err
  | nofuel
  deriving Repr, DecidableEq

/-- The `loop` in `MergeIterator::next`: pop the heap; drop invalid
iterators; advance (and re-push if still valid) any iterator whose key
equals `curKey`; on a different key with an empty value adopt that key
and continue; otherwise push the iterator back and stop.  Keys and
values of popped valid iterators go through `String::from_utf8`, whose
failure aborts with an error.  `fuel` bounds the iteration count; the
caller supplies more than the loop can consume. -/
def loopNext : Nat → Bytes → List W → LoopRes
  | 0, _, _ => .nofuel
  | fuel + 1, curKey, heap =>
    match popMin heap with
    | none => .ok heap
    | some (w, rest) =>
      if w.2.isEmpty then loopNext fuel curKey rest
      else
        let k := headKey w.2
        let v := headVal w.2
        if !isUtf8 k || !isUtf8 v then .err
        else if k = curKey then
          let w' : W := (w.1, w.2.tail)
          if !w'.2.isEmpty then loopNext fuel curKey (w' :: rest)
          else loopNext fuel curKey rest
        else if v.isEmpty then loopNext fuel k (w :: rest)
        else .ok (w :: rest)

/-- Total entries remaining in a heap. -/
def sumLen (l : List W) : Nat := (l.map (fun w => w.2.length)).sum

/-- Fuel that `loopNext` can never exhaust (proved sufficient below). -/
def fuelFor (l : List W) : Nat := 2 * sumLen l + 2 * l.length + 3

/-- Outcome of `MergeIterator::next`. -/
inductive StepRes where
  | ok (m : MergeIter)
  | err
  | panic
  | nofuel
  deriving Repr, DecidableEq

/-- Model of `MergeIterator::next`: unwrap `current` (panic when absent), check
its key is UTF-8, push it into the heap, drain duplicates and tombstone
groups, then pop the new minimum into `current` if the top of the heap
is valid. -/
def MergeIterator.next (m : MergeIter) : StepRes :=
  match m.current with
  | none => .panic
  | some c =>
    if !isUtf8 (headKey c.2) then .err
    else
      let heap1 := c :: m.iters
      match loopNext (fuelFor heap1) (headKey c.2) heap1 with
      | .err => .err
      | .nofuel => .nofuel
      | .ok heap2 =>
        match popMin heap2 with
        | some (w, rest) =>
          if !w.2.isEmpty then .ok ⟨rest, some w⟩
          else .ok ⟨heap2, none⟩
        | none => .ok ⟨heap2, none⟩

/-- Invariant of every reachable `MergeIterator` state: all owned
children are valid and well-formed sources, `current` is minimal in the
heap order, and the source indices are pairwise distinct. -/
def InvM (m : MergeIter) : Prop :=
  (∀ w ∈ allW m, w.2 ≠ [] ∧ wfChild w.2 = true) ∧
  (∀ c, m.current = some c → ∀ w ∈ m.iters, wLe c w = true) ∧
  (allW m |>.map Prod.fst).Nodup

/-- The entries the merge iterator emits within `n` observation steps:
the current entry while valid, advancing with `next`; the trace stops at
an invalid state or a failing `next`. -/
def emittedFrom : Nat → MergeIter → List (Bytes × Bytes)
  | 0, _ => []
  | n + 1, m =>
    match m.current with
    | none => []
    | some c =>
      if c.2.isEmpty then []
      else
        (headKey c.2, headVal c.2) ::
          (match MergeIterator.next m with
           | .ok m' => emittedFrom n m'
           | _ => [])

/-! ## Block encoding and decoding

`Block { data, offsets }` holds the payload bytes and the `u16` entry
offsets.  `encode` appends the big-endian offsets and the entry count;
`decode` reads the trailing count, slices the offset table out, and
copies the prefix.  Neither validates anything: decoding failures that
Rust turns into slice-index or `usize`-underflow panics are modelled by
`none`. -/

structure Block where
  data : List Nat
  offsets : List Nat
  deriving Repr, DecidableEq

/-- Big-endian bytes of a `u16` value (`put_u16`, truncating like
`as u16`). -/
def putU16 (n : Nat) : List Nat := [n / 256 % 256, n % 256]

/-- Model of `get_u16` from two big-endian bytes. -/
def getU16 (hi lo : Nat) : Nat := hi * 256 + lo

/-- The byte string of a `u16` offset table. -/
def putU16s : List Nat → List Nat
  | [] => []
  | o :: rest => putU16 o ++ putU16s rest

/-- Model of `chunks(2).map(get_u16)` over an offset table; a trailing odd byte
would make `get_u16` panic. -/
def getU16s : List Nat → Option (List Nat)
  | [] => some []
  | hi :: lo :: rest => (getU16s rest).map (fun l => getU16 hi lo :: l)
  | [_] => none

/-- Model of `Block::encode`: payload, offsets, count. -/
def Block.encode (b : Block) : List Nat :=
  b.data ++ putU16s b.offsets ++ putU16 b.offsets.length

/-- Model of `Block::decode`: read the trailing `u16` count, slice the offset
table out of the tail, copy the prefix as the payload.  A buffer too
short for the count (a `usize` underflow or out-of-range slice in Rust)
panics: `none`. -/
def Block.decode (d : List Nat) : Option Block :=
  if d.length < 2 then none
  else
    let n := getU16 (d.getD (d.length - 2) 0) (d.getD (d.length - 1) 0)
    if d.length < 2 * n + 2 then none
    else
      let dataEnd := d.length - 2 * n - 2
      match getU16s ((d.drop dataEnd).take (2 * n)) with
      | some offs => some ⟨d.take dataEnd, offs⟩
      | none => none

/-! ## BlockMeta decoding

`BlockMeta::decode_block_meta` reads a `u32` count and then decodes
records while bytes remain — the count is read into an unused variable
and never checked.  `bytes` reads past the end of the buffer panic:
`none`. -/

structure BlockMeta where
  offset : Nat
  first_key : Bytes
  last_key : Bytes
  deriving Repr, DecidableEq

/-- Model of `get_u32` of a big-endian buffer prefix; fewer than 4 bytes left
panics. -/
def getU32 : List Nat → Option (Nat × List Nat)
  | b0 :: b1 :: b2 :: b3 :: rest =>
    some (((b0 * 256 + b1) * 256 + b2) * 256 + b3, rest)
  | _ => none

/-- Model of `get_u16` of a buffer prefix; fewer than 2 bytes left panics. -/
def getU16p : List Nat → Option (Nat × List Nat)
  | hi :: lo :: rest => some (getU16 hi lo, rest)
  | _ => none

/-- Model of `copy_to_bytes n`; more than the remaining bytes panics. -/
def takeBytes (n : Nat) (l : List Nat) : Option (List Nat × List Nat) :=
  if n ≤ l.length then some (l.take n, l.drop n) else none

/-- The `while buffer.has_remaining()` record loop of
`decode_block_meta`: `offset(u32) | first_key_len(u16) | first_key |
last_key_len(u16) | last_key` per record.  Each iteration consumes at
least one byte, so fuel `buf.length + 1` is never exhausted. -/
def decodeBlockMetaLoop : Nat → List Nat → Option (List BlockMeta)
  | _, [] => some []
  | 0, _ :: _ => none
  | fuel + 1, buf =>
    match getU32 buf with
    | none => none
    | some (offset, r1) =>
      match getU16p r1 with
      | none => none
      | some (fkLen, r2) =>
        match takeBytes fkLen r2 with
        | none => none
        | some (fk, r3) =>
          match getU16p r3 with
          | none => none
          | some (lkLen, r4) =>
            match takeBytes lkLen r4 with
            | none => none
            | some (lk, r5) =>
              (decodeBlockMetaLoop fuel r5).map
                (fun ms => ⟨offset, fk, lk⟩ :: ms)

/-- Model of `BlockMeta::decode_block_meta`: read the `u32` meta count (unused!),
then decode records until the buffer is exhausted. -/
def BlockMeta.decode_block_meta (buf : List Nat) : Option (List BlockMeta) :=
  match getU32 buf with
  | none => none
  | some (_, rest) => decodeBlockMetaLoop (rest.length + 1) rest

/-- The `num_metas` field the meta section declares. -/
def declaredMetaCount (buf : List Nat) : Option Nat :=
  (getU32 buf).map Prod.fst

/-! ## SsTable and its iterators

An `SsTable` is modelled by its decoded state: the `BlockMeta` key
ranges, the entry sequences of its data blocks (what `read_block_cached`
followed by `BlockIterator` parsing yields), and the cached
`first_key`/`last_key`.  Reads from the pure model always succeed;
out-of-range block indices (a panic in `read_block`) yield `none`. -/

structure SsTable where
  block_meta : List (Bytes × Bytes)
  blocks : List Child
  first_key : Bytes
  last_key : Bytes
  deriving Repr, DecidableEq

/-- Reads `block_meta[i].first_key` (out of range: junk, as a Rust index
panic would never return). -/
def fK (t : SsTable) (i : Nat) : Bytes := (t.block_meta.getD i ([], [])).1

/-- Reads `block_meta[i].last_key`. -/
def lK (t : SsTable) (i : Nat) : Bytes := (t.block_meta.getD i ([], [])).2

/-- The decoded entries of data block `i`. -/
def blk (t : SsTable) (i : Nat) : Child := t.blocks.getD i []

/-- Key of the last entry of a block. -/
def lastEntryKey (c : Child) : Bytes :=
  match c.getLast? with
  | some e => e.1
  | none => []

/-- Well-formedness of an SsTable, as `SsTableBuilder`/`SsTable::open`
produce it: at least one block, metas and blocks aligned, each block a
non-empty well-formed source whose head/last keys the meta records,
consecutive blocks strictly separated, and the cached first/last keys
taken from the outer metas. -/
def wfTable (t : SsTable) : Prop :=
  t.block_meta ≠ [] ∧
  t.block_meta.length = t.blocks.length ∧
  (∀ i, i < t.block_meta.length →
    blk t i ≠ [] ∧ wfChild (blk t i) = true ∧
    fK t i = headKey (blk t i) ∧ lK t i = lastEntryKey (blk t i)) ∧
  (∀ i, i < t.block_meta.length - 1 → ltB (lK t i) (fK t (i + 1)) = true) ∧
  t.first_key = fK t 0 ∧
  t.last_key = lK t (t.block_meta.length - 1)

instance (t : SsTable) : Decidable (wfTable t) := by
  unfold wfTable
  infer_instance

/-- The scan loop of `SsTable::find_block_idx`: count the leading metas
whose `last_key` is below the key, stopping at the first that is not. -/
def countLtLoop : List (Bytes × Bytes) → Bytes → Nat
  | [], _ => 0
  | m :: tl, k => if ltB m.2 k then countLtLoop tl k + 1 else 0

/-- Model of `SsTable::find_block_idx`: clamp keys outside `[first_key,
last_key]` to `0`, otherwise scan the metas. -/
def SsTable.find_block_idx (t : SsTable) (k : Bytes) : Nat :=
  if ltB k t.first_key || ltB t.last_key k then 0
  else countLtLoop t.block_meta k

/-- A concrete two-block table used as witness input. -/
def demoTable : SsTable :=
  ⟨[([97], [98]), ([100], [101])],
   [[([97], [48]), ([98], [49])], [([100], [50]), ([101], [51])]],
   [97], [101]⟩

/-! ## MemTableIterator

The self-referential iterator holds the remaining range cursor (a list
of entries, since the skipmap range yields them in ascending order) and
the cached `item`.  `entry_to_item` maps an exhausted cursor to the pair
of empty byte strings. -/

structure MemTableIterator where
  iter : List (Bytes × Bytes)
  item : Bytes × Bytes
  deriving Repr, DecidableEq

/-- Model of `MemTableIterator::entry_to_item`. -/
def entry_to_item : Option (Bytes × Bytes) → Bytes × Bytes
  | some e => e
  | none => ([], [])

/-- Model of `MemTableIterator::next`: step the cursor, refresh the cache, return
ok unconditionally (the body has no fallible operation). -/
def MemTableIterator.next (it : MemTableIterator) :
    Except Unit MemTableIterator :=
  .ok ⟨it.iter.tail, entry_to_item it.iter.head?⟩

/-- Model of `MemTableIterator::is_valid`: the cached key is non-empty. -/
def MemTableIterator.is_valid (it : MemTableIterator) : Bool :=
  !it.item.1.isEmpty

/-! ## BlockIterator and SsTableIterator seek -/

/-- A `BlockIterator` over a decoded block: the parsed entry sequence
and the current index (`seek_to_idx` materializes the entry at `idx`;
past the end the key is cleared, making the iterator invalid). -/
structure BlockIter where
  entries : Child
  idx : Nat
  deriving Repr, DecidableEq

/-- Model of `BlockIterator::seek_to_key`: scan from index 0 while the iterator
is valid, stopping at the first entry whose key is at least the target
(an entry with an empty key makes the iterator invalid and also stops
the scan). -/
def blockSeekIdx : Child → Bytes → Nat
  | [], _ => 0
  | (key, _) :: tl, k =>
    if key.isEmpty then 0
    else if leB k key then 0
    else blockSeekIdx tl k + 1

/-- Model of `BlockIterator::is_valid`: the current key is non-empty. -/
def BlockIter.isValid (bi : BlockIter) : Bool :=
  match bi.entries[bi.idx]? with
  | some e => !e.1.isEmpty
  | none => false

/-- The state of an `SsTableIterator`: the inner block iterator and the
current block index (the shared table is passed to each operation). -/
structure SsTableIterator where
  blk_iter : BlockIter
  blk_idx : Nat
  deriving Repr, DecidableEq

/-- The binary search in `SsTableIterator::seek_to_key`: find a block
whose `[first_key, last_key]` contains the key, stepping `left` past
blocks whose `first_key` is below it and `right` before blocks whose
`first_key` is above.  `right = mid - 1` at `mid = 0` underflows `usize`
(panic): `none`. -/
def binSearchLoop (t : SsTable) (k : Bytes) :
    Nat → Nat → Nat → Option Nat
  | 0, _, _ => none
  | fuel + 1, left, right =>
    if left < right then
      let mid := left + (right - left) / 2
      if (leB (fK t mid) k && leB k (lK t mid)) = true then some mid
      else if ltB (fK t mid) k = true then binSearchLoop t k fuel (mid + 1) right
      else if mid = 0 then none
      else binSearchLoop t k fuel left (mid - 1)
    else some left

/-- Model of `SsTableIterator::seek_to_key`: keys outside `[first_key, last_key]`
reset the block index to 0 only when below `first_key` and then seek
inside the loaded block; otherwise binary-search the metas, seek inside
the found block, and on an invalid result load the following block at
its first entry.  Notably `blk_idx` is left unchanged on the
binary-search path.  Out-of-range block reads panic: `none`. -/
def SsTableIterator.seek_to_key (t : SsTable) (it : SsTableIterator)
    (k : Bytes) : Option SsTableIterator :=
  if (ltB k t.first_key || ltB t.last_key k) = true then
    let idx := if ltB k t.first_key = true then 0 else it.blk_idx
    match t.blocks[idx]? with
    | none => none
    | some b => some ⟨⟨b, blockSeekIdx b k⟩, idx⟩
  else
    match binSearchLoop t k (t.block_meta.length + 1) 0
        (t.block_meta.length - 1) with
    | none => none
    | some li =>
      match t.blocks[li]? with
      | none => none
      | some b =>
        let bi : BlockIter := ⟨b, blockSeekIdx b k⟩
        if BlockIter.isValid bi = true then some ⟨bi, it.blk_idx⟩
        else
          match t.blocks[li + 1]? with
          | none => none
          | some b2 => some ⟨⟨b2, 0⟩, it.blk_idx⟩

/-- Model of `SsTableIterator::create_and_seek_to_key`: load block 0 at its first
entry, then seek. -/
def SsTableIterator.create_and_seek_to_key (t : SsTable) (k : Bytes) :
    Option SsTableIterator :=
  match t.blocks[0]? with
  | none => none
  | some b0 => SsTableIterator.seek_to_key t ⟨⟨b0, 0⟩, 0⟩ k

/-- Model of `SsTableIterator::is_valid`: the inner block iterator is valid or
the block index still references a block. -/
def SsTableIterator.is_valid (t : SsTable) (it : SsTableIterator) : Bool :=
  BlockIter.isValid it.blk_iter || decide (it.blk_idx < t.block_meta.length)

/-- The current entry under the iterator (delegating `key`/`value`). -/
def SsTableIterator.currentEntry (it : SsTableIterator) :
    Option (Bytes × Bytes) :=
  it.blk_iter.entries[it.blk_iter.idx]?

/-- All entries of the table in block order. -/
def flatEntries (t : SsTable) : Child := t.blocks.flatten

/-! ## Theorems -/

theorem cmpB_self (a : Bytes) : cmpB a a = .eq := by
  induction a with
  | nil => rfl
  | cons x xs ih => simp [cmpB, ih]

theorem cmpB_eq_iff {a b : Bytes} : cmpB a b = .eq ↔ a = b := by
  induction a generalizing b with
  | nil => cases b <;> simp [cmpB]
  | cons x xs ih =>
    cases b with
    | nil => simp [cmpB]
    | cons y ys =>
      by_cases hxy : x < y
      · simp [cmpB, hxy]
        omega
      · by_cases hyx : y < x
        · simp [cmpB, hxy, hyx]
          omega
        · have hxyeq : x = y := by omega
          subst hxyeq
          simp [cmpB, ih]

theorem cmpB_swap (a b : Bytes) : (cmpB a b).swap = cmpB b a := by
  induction a generalizing b with
  | nil => cases b <;> simp [cmpB, Ordering.swap]
  | cons x xs ih =>
    cases b with
    | nil => simp [cmpB, Ordering.swap]
    | cons y ys =>
      by_cases hxy : x < y
      · have : ¬ y < x := by omega
        simp [cmpB, hxy, this, Ordering.swap]
      · by_cases hyx : y < x
        · simp [cmpB, hxy, hyx, Ordering.swap]
        · simp [cmpB, hxy, hyx, ih]

theorem cmpB_lt_trans {a b c : Bytes} :
    cmpB a b = .lt → cmpB b c = .lt → cmpB a c = .lt := by
  induction a generalizing b c with
  | nil =>
    intro hab hbc
    cases b with
    | nil => simpa [cmpB] using hbc
    | cons y ys =>
      cases c with
      | nil => simp [cmpB] at hbc
      | cons z zs => simp [cmpB]
  | cons x xs ih =>
    intro hab hbc
    cases b with
    | nil => simp [cmpB] at hab
    | cons y ys =>
      cases c with
      | nil => simp [cmpB] at hbc
      | cons z zs =>
        simp only [cmpB] at hab hbc ⊢
        by_cases hxy : x < y
        · by_cases hyz : y < z
          · have hxz : x < z := by omega
            simp [hxz]
          · by_cases hzy : z < y
            · simp [hyz, hzy] at hbc
            · have hyzeq : y = z := by omega
              subst hyzeq
              simp [hxy]
        · by_cases hyx : y < x
          · simp [hxy, hyx] at hab
          · have hxyeq : x = y := by omega
            subst hxyeq
            by_cases hyz : x < z
            · simp [hyz]
            · by_cases hzy : z < x
              · simp [hyz, hzy] at hbc
              · have : x = z := by omega
                subst this
                simp [hxy] at hab hbc ⊢
                exact ih hab hbc

theorem cmpB_gt_iff {a b : Bytes} : cmpB a b = .gt ↔ cmpB b a = .lt := by
  constructor
  · intro h
    have := cmpB_swap a b
    rw [h] at this
    simpa [Ordering.swap] using this.symm
  · intro h
    have := cmpB_swap b a
    rw [h] at this
    simpa [Ordering.swap] using this.symm

theorem ltB_iff {a b : Bytes} : ltB a b = true ↔ cmpB a b = .lt := by
  unfold ltB
  cases cmpB a b <;> simp <;> decide

theorem leB_iff {a b : Bytes} : leB a b = true ↔ cmpB a b ≠ .gt := by
  unfold leB
  cases cmpB a b <;> simp <;> decide

theorem leB_refl (a : Bytes) : leB a a = true := by
  simp [leB_iff, cmpB_self]

theorem ltB_le {a b : Bytes} (h : ltB a b = true) : leB a b = true := by
  rw [ltB_iff] at h
  rw [leB_iff, h]
  simp

theorem leB_of_not_gt {a b : Bytes} (h : ¬ cmpB a b = .gt) : leB a b = true := by
  rw [leB_iff]; exact h

theorem leB_cases {a b : Bytes} (h : leB a b = true) :
    ltB a b = true ∨ a = b := by
  rw [leB_iff] at h
  rcases hc : cmpB a b with _ | _ | _
  · left; rw [ltB_iff, hc]
  · right; exact cmpB_eq_iff.mp hc
  · exact absurd hc h

theorem leB_antisymm {a b : Bytes} (h1 : leB a b = true) (h2 : leB b a = true) :
    a = b := by
  rcases leB_cases h1 with h | h
  · rcases leB_cases h2 with h' | h'
    · rw [ltB_iff] at h h'
      have := cmpB_lt_trans h h'
      rw [cmpB_self] at this
      cases this
    · exact h'.symm
  · exact h

theorem ltB_irrefl (a : Bytes) : ltB a a = false := by
  rw [← Bool.not_eq_true, ltB_iff, cmpB_self]
  simp

theorem ltB_trans {a b c : Bytes} (h1 : ltB a b = true) (h2 : ltB b c = true) :
    ltB a c = true := by
  rw [ltB_iff] at *
  exact cmpB_lt_trans h1 h2

theorem ltB_of_le_of_lt {a b c : Bytes} (h1 : leB a b = true)
    (h2 : ltB b c = true) : ltB a c = true := by
  rcases leB_cases h1 with h | h
  · exact ltB_trans h h2
  · subst h; exact h2

theorem ltB_of_lt_of_le {a b c : Bytes} (h1 : ltB a b = true)
    (h2 : leB b c = true) : ltB a c = true := by
  rcases leB_cases h2 with h | h
  · exact ltB_trans h1 h
  · subst h; exact h1

theorem leB_trans {a b c : Bytes} (h1 : leB a b = true) (h2 : leB b c = true) :
    leB a c = true := by
  rcases leB_cases h1 with h | h
  · exact ltB_le (ltB_of_lt_of_le h h2)
  · subst h; exact h2

theorem leB_of_ltB_false {a b : Bytes} (h : ltB a b = false) : leB b a = true := by
  rw [leB_iff]
  intro hgt
  rw [cmpB_gt_iff] at hgt
  rw [ltB, hgt] at h
  exact absurd h (by decide)

theorem ltB_asymm {a b : Bytes} (h : ltB a b = true) : ltB b a = false := by
  by_contra hc
  have hba : ltB b a = true := by
    cases hb : ltB b a
    · exact absurd hb hc
    · rfl
  have := ltB_trans h hba
  rw [ltB_irrefl] at this
  cases this

theorem ltB_ne {a b : Bytes} (h : ltB a b = true) : a ≠ b := by
  intro he
  subst he
  rw [ltB_irrefl] at h
  cases h

theorem not_ltB_of_leB {a b : Bytes} (h : leB a b = true) : ltB b a = false := by
  rcases leB_cases h with h' | h'
  · exact ltB_asymm h'
  · subst h'; exact ltB_irrefl a

theorem ltB_nil_of_ne {a : Bytes} (h : a ≠ []) : ltB [] a = true := by
  cases a with
  | nil => exact absurd rfl h
  | cons x xs => rw [ltB_iff]; rfl

theorem cmpN_self (i : Nat) : cmpN i i = .eq := by
  simp [cmpN]

theorem cmpN_eq_iff {i j : Nat} : cmpN i j = .eq ↔ i = j := by
  unfold cmpN
  by_cases h1 : i < j
  · simp [h1]; omega
  · by_cases h2 : j < i
    · simp [h1, h2]; omega
    · simp [h1, h2]; omega

theorem cmpN_lt_iff {i j : Nat} : cmpN i j = .lt ↔ i < j := by
  unfold cmpN
  by_cases h1 : i < j
  · simp [h1]
  · by_cases h2 : j < i <;> simp [h1, h2]

theorem cmpN_gt_iff {i j : Nat} : cmpN i j = .gt ↔ j < i := by
  unfold cmpN
  by_cases h1 : i < j
  · simp [h1]; omega
  · by_cases h2 : j < i <;> simp [h1, h2]

theorem wLe_iff {a b : W} : wLe a b = true ↔ cmpW a b ≠ .gt := by
  unfold wLe
  cases cmpW a b <;> simp <;> decide

/-- The heap's pop order is: smaller key first, ties broken by smaller
source index. -/
theorem wLe_char {a b : W} :
    wLe a b = true ↔
      (ltB (headKey a.2) (headKey b.2) = true ∨
        (headKey a.2 = headKey b.2 ∧ a.1 ≤ b.1)) := by
  rw [wLe_iff]
  unfold cmpW
  rcases hk : cmpB (headKey a.2) (headKey b.2) with _ | _ | _
  · simp only [Ordering.then]
    constructor
    · intro _
      left
      rw [ltB_iff]
      exact hk
    · intro _
      simp
  · simp only [Ordering.then]
    constructor
    · intro h
      right
      refine ⟨cmpB_eq_iff.mp hk, ?_⟩
      by_contra hc
      exact h (cmpN_gt_iff.mpr (by omega))
    · rintro (h | ⟨_, h⟩)
      · rw [ltB_iff, hk] at h
        cases h
      · intro hgt
        rw [cmpN_gt_iff] at hgt
        omega
  · simp only [Ordering.then]
    constructor
    · intro h
      exact absurd rfl h
    · rintro (h | ⟨he, _⟩)
      · rw [ltB_iff, hk] at h
        cases h
      · rw [he, cmpB_self] at hk
        cases hk

theorem wLe_refl (a : W) : wLe a a = true := by
  rw [wLe_char]
  right
  exact ⟨rfl, le_refl _⟩

theorem wLe_key_le {a b : W} (h : wLe a b = true) :
    leB (headKey a.2) (headKey b.2) = true := by
  rw [wLe_char] at h
  rcases h with h | ⟨h, _⟩
  · exact ltB_le h
  · rw [h]
    exact leB_refl _

theorem wLe_of_key_lt {a b : W}
    (h : ltB (headKey a.2) (headKey b.2) = true) : wLe a b = true := by
  rw [wLe_char]
  left
  exact h

theorem wLe_total (a b : W) : wLe a b = true ∨ wLe b a = true := by
  rw [wLe_char, wLe_char]
  rcases hc : cmpB (headKey a.2) (headKey b.2) with _ | _ | _
  · left; left
    rw [ltB_iff]
    exact hc
  · have he := cmpB_eq_iff.mp hc
    rcases Nat.le_total a.1 b.1 with h | h
    · left; right; exact ⟨he, h⟩
    · right; right; exact ⟨he.symm, h⟩
  · right; left
    rw [ltB_iff]
    exact cmpB_gt_iff.mp hc

theorem wLe_trans {a b c : W} (h1 : wLe a b = true) (h2 : wLe b c = true) :
    wLe a c = true := by
  rw [wLe_char] at h1 h2 ⊢
  rcases h1 with h1 | ⟨he1, hi1⟩
  · rcases h2 with h2 | ⟨he2, _⟩
    · left; exact ltB_trans h1 h2
    · left; rw [← he2]; exact h1
  · rcases h2 with h2 | ⟨he2, hi2⟩
    · left; rw [he1]; exact h2
    · right; exact ⟨he1.trans he2, le_trans hi1 hi2⟩

theorem wLe_of_not_wLe {a b : W} (h : ¬ wLe a b = true) : wLe b a = true := by
  rcases wLe_total a b with h' | h'
  · exact absurd h' h
  · exact h'

theorem popMin_nil_iff {l : List W} : popMin l = none ↔ l = [] := by
  cases l with
  | nil => simp [popMin]
  | cons w ws =>
    simp only [popMin]
    rcases h : popMin ws with _ | ⟨m, r⟩
    · simp
    · by_cases hle : wLe w m = true <;> simp [hle]

theorem popMin_perm {l : List W} {m : W} {r : List W}
    (h : popMin l = some (m, r)) : l.Perm (m :: r) := by
  induction l generalizing m r with
  | nil => simp [popMin] at h
  | cons w ws ih =>
    simp only [popMin] at h
    rcases hp : popMin ws with _ | ⟨m', r'⟩
    · rw [hp] at h
      have hws : ws = [] := popMin_nil_iff.mp hp
      subst hws
      simp at h
      obtain ⟨h1, h2⟩ := h
      subst h1; subst h2
      exact List.Perm.refl _
    · rw [hp] at h
      by_cases hle : wLe w m' = true
      · simp [hle] at h
        obtain ⟨h1, h2⟩ := h
        subst h1; subst h2
        exact List.Perm.refl _
      · simp [hle] at h
        obtain ⟨h1, h2⟩ := h
        subst h1; subst h2
        have hperm := ih hp
        exact (hperm.cons w).trans (List.Perm.swap _ w r')

theorem popMin_mem {l : List W} {m : W} {r : List W}
    (h : popMin l = some (m, r)) : m ∈ l :=
  (popMin_perm h).symm.mem_iff.mp (List.mem_cons_self m r)

theorem popMin_mem_iff {l : List W} {m : W} {r : List W}
    (h : popMin l = some (m, r)) {u : W} : u ∈ l ↔ (u = m ∨ u ∈ r) := by
  rw [(popMin_perm h).mem_iff]
  simp

theorem popMin_min {l : List W} {m : W} {r : List W}
    (h : popMin l = some (m, r)) : ∀ u ∈ r, wLe m u = true := by
  induction l generalizing m r with
  | nil => simp [popMin] at h
  | cons w ws ih =>
    simp only [popMin] at h
    rcases hp : popMin ws with _ | ⟨m', r'⟩
    · rw [hp] at h
      simp at h
      obtain ⟨h1, h2⟩ := h
      subst h1; subst h2
      intro u hu
      cases hu
    · rw [hp] at h
      by_cases hle : wLe w m' = true
      · simp [hle] at h
        obtain ⟨h1, h2⟩ := h
        subst h1; subst h2
        intro u hu
        rcases (popMin_mem_iff hp).mp hu with h' | h'
        · subst h'
          exact hle
        · exact wLe_trans hle (ih hp u h')
      · simp [hle] at h
        obtain ⟨h1, h2⟩ := h
        subst h1; subst h2
        intro u hu
        rcases List.mem_cons.mp hu with h' | h'
        · subst h'
          exact wLe_of_not_wLe hle
        · exact ih hp u h'

theorem popMin_cons_of_min {w : W} {ws : List W}
    (h : ∀ u ∈ ws, wLe w u = true) : popMin (w :: ws) = some (w, ws) := by
  simp only [popMin]
  rcases hp : popMin ws with _ | ⟨m, r⟩
  · have : ws = [] := popMin_nil_iff.mp hp
    subst this
    rfl
  · have hm : m ∈ ws := popMin_mem hp
    simp [h m hm]

theorem isEmpty_false_iff {α : Type} {l : List α} :
    l.isEmpty = false ↔ l ≠ [] := by
  cases l <;> simp

theorem isEmpty_true_iff {α : Type} {l : List α} :
    l.isEmpty = true ↔ l = [] := by
  cases l <;> simp

theorem headKey_ne_nil {c : Child} (hc : c ≠ []) (hwf : wfChild c = true) :
    headKey c ≠ [] := by
  cases c with
  | nil => exact absurd rfl hc
  | cons e tl =>
    obtain ⟨k, v⟩ := e
    simp only [wfChild, Bool.and_eq_true] at hwf
    obtain ⟨⟨hk, _⟩, _⟩ := hwf
    simp only [headKey]
    rw [Bool.not_eq_true'] at hk
    exact isEmpty_false_iff.mp hk

theorem wfChild_tail {c : Child} (h : wfChild c = true) :
    wfChild c.tail = true := by
  cases c with
  | nil => exact h
  | cons e tl =>
    obtain ⟨k, v⟩ := e
    simp only [wfChild, Bool.and_eq_true] at h
    exact h.2

theorem wfChild_head_lt_tail {k : Bytes} {v : Bytes} {tl : Child}
    (h : wfChild ((k, v) :: tl) = true) (htl : tl ≠ []) :
    ltB k (headKey tl) = true := by
  cases tl with
  | nil => exact absurd rfl htl
  | cons e2 tl2 =>
    obtain ⟨k2, v2⟩ := e2
    simp only [wfChild, Bool.and_eq_true] at h
    exact h.1.2

/-- Every key a well-formed child will yield is at least its head key. -/
theorem wfChild_keys_ge_head {c : Child} (h : wfChild c = true) :
    ∀ k ∈ keysOf c, leB (headKey c) k = true := by
  induction c with
  | nil => intro k hk; cases hk
  | cons e tl ih =>
    obtain ⟨k0, v0⟩ := e
    intro k hk
    simp only [keysOf, List.map_cons, List.mem_cons] at hk
    rcases hk with hk | hk
    · subst hk
      exact leB_refl _
    · have htl : tl ≠ [] := by
        intro he
        rw [he] at hk
        cases hk
      have h1 : ltB k0 (headKey tl) = true := wfChild_head_lt_tail h htl
      have h2 := ih (wfChild_tail h) k hk
      exact ltB_le (ltB_of_lt_of_le h1 h2)

/-- Well-formed loop-exit: every surviving wrapper is valid, still
well-formed, and strictly above the entry key; the surviving source
indices are a sub-multiset of the entry ones. -/
theorem loopNext_post :
    ∀ fuel curKey heap heap',
      (∀ w ∈ heap, wfChild w.2 = true ∧
        (w.2 ≠ [] → leB curKey (headKey w.2) = true)) →
      loopNext fuel curKey heap = .ok heap' →
      (∀ w ∈ heap', w.2 ≠ [] ∧ wfChild w.2 = true ∧
        ltB curKey (headKey w.2) = true) ∧
      ((heap'.map Prod.fst : Multiset Nat) ≤ (heap.map Prod.fst : Multiset Nat)) := by
  intro fuel
  induction fuel with
  | zero => intro curKey heap heap' _ h; cases h
  | succ fuel ih =>
    intro curKey heap heap' H h
    rw [loopNext] at h
    rcases hp : popMin heap with _ | ⟨w, rest⟩
    · rw [hp] at h
      have : heap = [] := popMin_nil_iff.mp hp
      subst this
      cases h
      constructor
      · intro w hw; cases hw
      · exact le_refl _
    · rw [hp] at h
      dsimp only at h
      have hperm := popMin_perm hp
      have hmem : ∀ u ∈ rest, u ∈ heap := by
        intro u hu
        exact (popMin_mem_iff hp).mpr (Or.inr hu)
      have hw_mem : w ∈ heap := popMin_mem hp
      have hms : (heap.map Prod.fst : Multiset Nat) =
          (w.1 ::ₘ (rest.map Prod.fst : Multiset Nat)) := by
        have := hperm.map Prod.fst
        rw [← Multiset.coe_eq_coe] at this
        simpa using this
      by_cases hwe : w.2.isEmpty = true
      · rw [if_pos hwe] at h
        have Hr : ∀ u ∈ rest, wfChild u.2 = true ∧
            (u.2 ≠ [] → leB curKey (headKey u.2) = true) := by
          intro u hu; exact H u (hmem u hu)
        obtain ⟨hall, hle⟩ := ih curKey rest heap' Hr h
        refine ⟨hall, ?_⟩
        rw [hms]
        exact le_trans hle (Multiset.le_cons_self _ _)
      · rw [if_neg (by simpa using hwe)] at h
        have hwne : w.2 ≠ [] := by
          rw [Bool.not_eq_true] at hwe
          exact isEmpty_false_iff.mp hwe
        obtain ⟨hwf_w, hle_w⟩ := H w hw_mem
        have hcur_le : leB curKey (headKey w.2) = true := hle_w hwne
        by_cases hu8 : (!isUtf8 (headKey w.2) || !isUtf8 (headVal w.2)) = true
        · rw [if_pos hu8] at h
          cases h
        · rw [if_neg hu8] at h
          by_cases hk : headKey w.2 = curKey
          · rw [if_pos hk] at h
            by_cases hne : (w.2.tail).isEmpty = true
            · rw [if_neg (by simp [hne])] at h
              have Hr : ∀ u ∈ rest, wfChild u.2 = true ∧
                  (u.2 ≠ [] → leB curKey (headKey u.2) = true) := by
                intro u hu; exact H u (hmem u hu)
              obtain ⟨hall, hle⟩ := ih curKey rest heap' Hr h
              refine ⟨hall, ?_⟩
              rw [hms]
              exact le_trans hle (Multiset.le_cons_self _ _)
            · rw [if_pos (by simp [hne])] at h
              have Hr : ∀ u ∈ ((w.1, w.2.tail) :: rest),
                  wfChild u.2 = true ∧
                  (u.2 ≠ [] → leB curKey (headKey u.2) = true) := by
                intro u hu
                rcases List.mem_cons.mp hu with hu | hu
                · subst hu
                  refine ⟨wfChild_tail hwf_w, ?_⟩
                  intro htne
                  have htne' : w.2.tail ≠ [] := htne
                  obtain ⟨⟨k0, v0⟩, tl, he⟩ : ∃ e tl, w.2 = e :: tl := by
                    cases hc : w.2 with
                    | nil => exact absurd hc hwne
                    | cons e tl => exact ⟨e, tl, rfl⟩
                  rw [he] at htne' ⊢
                  simp only [List.tail_cons] at htne' ⊢
                  have hwf2 : wfChild ((k0, v0) :: tl) = true := by
                    rw [he] at hwf_w
                    exact hwf_w
                  have hlt : ltB k0 (headKey tl) = true :=
                    wfChild_head_lt_tail hwf2 htne'
                  have hk' : k0 = curKey := by
                    rw [he] at hk
                    simpa [headKey] using hk
                  rw [← hk']
                  exact ltB_le hlt
                · exact H u (hmem u hu)
              obtain ⟨hall, hle⟩ := ih curKey ((w.1, w.2.tail) :: rest) heap' Hr h
              refine ⟨hall, ?_⟩
              rw [hms]
              refine le_trans hle ?_
              simp only [List.map_cons, Multiset.cons_coe]
              exact le_refl _
          · rw [if_neg hk] at h
            have hlt_cur : ltB curKey (headKey w.2) = true := by
              rcases leB_cases hcur_le with h' | h'
              · exact h'
              · exact absurd h'.symm hk
            by_cases hv : (headVal w.2).isEmpty = true
            · rw [if_pos hv] at h
              have Hr : ∀ u ∈ (w :: rest),
                  wfChild u.2 = true ∧
                  (u.2 ≠ [] → leB (headKey w.2) (headKey u.2) = true) := by
                intro u hu
                rcases List.mem_cons.mp hu with hu | hu
                · subst hu
                  exact ⟨hwf_w, fun _ => leB_refl _⟩
                · refine ⟨(H u (hmem u hu)).1, ?_⟩
                  intro _
                  exact wLe_key_le (popMin_min hp u hu)
              obtain ⟨hall, hle⟩ := ih (headKey w.2) (w :: rest) heap' Hr h
              constructor
              · intro u hu
                obtain ⟨h1, h2, h3⟩ := hall u hu
                exact ⟨h1, h2, ltB_trans hlt_cur h3⟩
              · rw [hms]
                refine le_trans hle ?_
                simp only [List.map_cons, Multiset.cons_coe]
                exact le_refl _
            · rw [if_neg hv] at h
              cases h
              constructor
              · intro u hu
                rcases List.mem_cons.mp hu with hu | hu
                · subst hu
                  exact ⟨hwne, hwf_w, hlt_cur⟩
                · have humem := hmem u hu
                  have hwle := popMin_min hp u hu
                  have hkey_le := wLe_key_le hwle
                  have hune : u.2 ≠ [] := by
                    intro he
                    have : headKey u.2 = [] := by rw [he]; rfl
                    rw [this] at hkey_le
                    have hne := headKey_ne_nil hwne hwf_w
                    rw [leB_iff] at hkey_le
                    apply hkey_le
                    cases hkc : headKey w.2 with
                    | nil => exact absurd hkc hne
                    | cons a as => rfl
                  refine ⟨hune, (H u humem).1, ?_⟩
                  exact ltB_of_lt_of_le hlt_cur hkey_le
              · rw [hms]
                simp only [List.map_cons, Multiset.cons_coe]
                exact le_refl _

/-- Shape of a successful loop exit: either the heap drained completely,
or its minimum is a valid iterator whose current value is non-empty. -/
theorem loopNext_min_val :
    ∀ fuel curKey heap heap',
      loopNext fuel curKey heap = .ok heap' →
      heap' = [] ∨
        ∃ w rest, heap' = w :: rest ∧ w.2 ≠ [] ∧ headVal w.2 ≠ [] ∧
          (∀ u ∈ rest, wLe w u = true) := by
  intro fuel
  induction fuel with
  | zero => intro curKey heap heap' h; cases h
  | succ fuel ih =>
    intro curKey heap heap' h
    rw [loopNext] at h
    rcases hp : popMin heap with _ | ⟨w, rest⟩
    · rw [hp] at h
      have : heap = [] := popMin_nil_iff.mp hp
      subst this
      cases h
      left
      rfl
    · rw [hp] at h
      dsimp only at h
      by_cases hwe : w.2.isEmpty = true
      · rw [if_pos hwe] at h
        exact ih curKey rest heap' h
      · rw [if_neg (by simpa using hwe)] at h
        by_cases hu8 : (!isUtf8 (headKey w.2) || !isUtf8 (headVal w.2)) = true
        · rw [if_pos hu8] at h
          cases h
        · rw [if_neg hu8] at h
          by_cases hk : headKey w.2 = curKey
          · rw [if_pos hk] at h
            by_cases hne : (w.2.tail).isEmpty = true
            · rw [if_neg (by simp [hne])] at h
              exact ih curKey rest heap' h
            · rw [if_pos (by simp [hne])] at h
              exact ih curKey ((w.1, w.2.tail) :: rest) heap' h
          · rw [if_neg hk] at h
            by_cases hv : (headVal w.2).isEmpty = true
            · rw [if_pos hv] at h
              exact ih (headKey w.2) (w :: rest) heap' h
            · rw [if_neg hv] at h
              cases h
              right
              refine ⟨w, rest, rfl, ?_, ?_, popMin_min hp⟩
              · rw [Bool.not_eq_true] at hwe
                exact isEmpty_false_iff.mp hwe
              · rw [Bool.not_eq_true] at hv
                exact isEmpty_false_iff.mp hv

/-- The fuel `fuelFor` supplies is never exhausted: the loop always
reaches a `break`, an empty heap, or an error. -/
theorem loopNext_no_fuel_exhaustion :
    ∀ fuel curKey heap,
      2 * sumLen heap + 2 * heap.length + 1 ≤ fuel →
      loopNext fuel curKey heap ≠ .nofuel := by
  intro fuel
  induction fuel using Nat.strong_induction_on with
  | _ fuel ih =>
    intro curKey heap hfuel
    cases fuel with
    | zero => exact absurd hfuel (by omega)
    | succ fuel =>
      rw [loopNext]
      rcases hp : popMin heap with _ | ⟨w, rest⟩
      · simp
      · dsimp only
        have hperm := popMin_perm hp
        have hsum : sumLen heap = w.2.length + sumLen rest := by
          unfold sumLen
          rw [((hperm.map (fun w => w.2.length)).sum_eq :)]
          simp
        have hlen : heap.length = rest.length + 1 := by
          rw [hperm.length_eq]
          simp
        by_cases hwe : w.2.isEmpty = true
        · rw [if_pos hwe]
          apply ih fuel (by omega) curKey rest
          omega
        · rw [if_neg (by simpa using hwe)]
          by_cases hu8 : (!isUtf8 (headKey w.2) || !isUtf8 (headVal w.2)) = true
          · rw [if_pos hu8]
            simp
          · rw [if_neg hu8]
            have hwlen : 1 ≤ w.2.length := by
              rw [Bool.not_eq_true] at hwe
              have := isEmpty_false_iff.mp hwe
              cases hc : w.2 with
              | nil => exact absurd hc this
              | cons e tl => simp
            by_cases hk : headKey w.2 = curKey
            · rw [if_pos hk]
              have htl : w.2.tail.length = w.2.length - 1 := by
                cases w.2 <;> simp
              by_cases hne : (w.2.tail).isEmpty = true
              · rw [if_neg (by simp [hne])]
                apply ih fuel (by omega) curKey rest
                omega
              · rw [if_pos (by simp [hne])]
                apply ih fuel (by omega) curKey ((w.1, w.2.tail) :: rest)
                have : sumLen ((w.1, w.2.tail) :: rest) =
                    w.2.tail.length + sumLen rest := by
                  unfold sumLen
                  simp
                simp only [List.length_cons]
                omega
            · rw [if_neg hk]
              by_cases hv : (headVal w.2).isEmpty = true
              · rw [if_pos hv]
                -- adoption step: the same wrapper is popped again next
                -- iteration (it is the minimum) and then advanced.
                cases fuel with
                | zero => exfalso; omega
                | succ fuel' =>
                  rw [loopNext]
                  rw [popMin_cons_of_min (popMin_min hp)]
                  dsimp only
                  rw [if_neg (by simpa using hwe)]
                  rw [if_neg hu8]
                  rw [if_pos rfl]
                  have htl : w.2.tail.length = w.2.length - 1 := by
                    cases w.2 <;> simp
                  by_cases hne : (w.2.tail).isEmpty = true
                  · rw [if_neg (by simp [hne])]
                    apply ih fuel' (by omega) (headKey w.2) rest
                    omega
                  · rw [if_pos (by simp [hne])]
                    apply ih fuel' (by omega) (headKey w.2)
                      ((w.1, w.2.tail) :: rest)
                    have : sumLen ((w.1, w.2.tail) :: rest) =
                        w.2.tail.length + sumLen rest := by
                      unfold sumLen
                      simp
                    simp only [List.length_cons]
                    omega
              · rw [if_neg hv]
                simp

theorem invM_create {srcs : List Child}
    (h : ∀ c ∈ srcs, wfChild c = true) :
    InvM (MergeIterator.create srcs) := by
  unfold MergeIterator.create
  by_cases he : srcs.isEmpty = true
  · rw [if_pos he]
    refine ⟨?_, ?_, ?_⟩
    · intro w hw; cases hw
    · intro c hc; cases hc
    · simp [allW]
  · rw [if_neg he]
    dsimp only
    rcases hp : popMin (srcs.filter (fun c => !c.isEmpty)).enum with _ | ⟨w, rest⟩
    · rw [hp]
      refine ⟨?_, ?_, ?_⟩
      · intro w hw; cases hw
      · intro c hc; cases hc
      · simp [allW]
    · rw [hp]
      have hperm := popMin_perm hp
      have hmem_all : ∀ u ∈ allW ⟨rest, some w⟩,
          u ∈ (srcs.filter (fun c => !c.isEmpty)).enum := by
        intro u hu
        apply hperm.symm.mem_iff.mp
        simpa [allW] using hu
      refine ⟨?_, ?_, ?_⟩
      · intro u hu
        have hin := hmem_all u hu
        have hsnd : u.2 ∈ srcs.filter (fun c => !c.isEmpty) := by
          have := List.mem_map_of_mem Prod.snd hin
          rwa [List.enum_map_snd] at this
        rw [List.mem_filter] at hsnd
        constructor
        · have := hsnd.2
          simp only [Bool.not_eq_true'] at this
          exact isEmpty_false_iff.mp this
        · exact h u.2 hsnd.1
      · intro c hc w' hw'
        simp only at hc
        cases hc
        exact popMin_min hp w' hw'
      · have hpf : (allW ⟨rest, some w⟩).map Prod.fst =
            ((w :: rest).map Prod.fst) := by
          simp [allW]
        rw [hpf]
        rw [← ((hperm.map Prod.fst).nodup_iff :)]
        rw [List.enum_map_fst]
        exact List.nodup_range _

theorem invM_next {m m' : MergeIter} (hinv : InvM m)
    (h : MergeIterator.next m = .ok m') :
    InvM m' ∧
    (∀ c, m.current = some c →
      ∀ w ∈ allW m', ltB (headKey c.2) (headKey w.2) = true) := by
  obtain ⟨hall, hmin, hnd⟩ := hinv
  unfold MergeIterator.next at h
  rcases hc : m.current with _ | c
  · rw [hc] at h
    cases h
  · rw [hc] at h
    dsimp only at h
    by_cases hu8 : (!isUtf8 (headKey c.2)) = true
    · rw [if_pos hu8] at h
      cases h
    · rw [if_neg hu8] at h
      have hc_mem : c ∈ allW m := by
        simp [allW, hc]
      have H : ∀ w ∈ (c :: m.iters), wfChild w.2 = true ∧
          (w.2 ≠ [] → leB (headKey c.2) (headKey w.2) = true) := by
        intro w hw
        rcases List.mem_cons.mp hw with hw | hw
        · rw [hw]
          exact ⟨(hall c hc_mem).2, fun _ => leB_refl _⟩
        · have hw_all : w ∈ allW m := by simp [allW, hc, hw]
          exact ⟨(hall w hw_all).2, fun _ => wLe_key_le (hmin c hc w hw)⟩
      rcases hl : loopNext (fuelFor (c :: m.iters)) (headKey c.2) (c :: m.iters)
        with heap2 | _ | _
      · rw [hl] at h
        dsimp only at h
        obtain ⟨hpost, hms⟩ := loopNext_post _ _ _ _ H hl
        have hms_all : ((heap2.map Prod.fst : Multiset Nat)) ≤
            ((allW m).map Prod.fst : Multiset Nat) := by
          have : (allW m).map Prod.fst = (c :: m.iters).map Prod.fst := by
            simp [allW, hc]
          rw [this]
          exact hms
        have hnd2 : heap2.Nodup → True := fun _ => trivial
        have hnd_heap2 : (heap2.map Prod.fst).Nodup := by
          rw [← Multiset.coe_nodup]
          exact Multiset.nodup_of_le hms_all (by rw [Multiset.coe_nodup]; exact hnd)
        rcases hp2 : popMin heap2 with _ | ⟨w, rest⟩
        · rw [hp2] at h
          cases h
          refine ⟨⟨?_, ?_, ?_⟩, ?_⟩
          · intro w hw
            simp only [allW] at hw
            obtain ⟨h1, h2, _⟩ := hpost w hw
            exact ⟨h1, h2⟩
          · intro c' hc'; cases hc'
          · simpa [allW] using hnd_heap2
          · intro c0 hc0 w hw
            cases hc0
            simp only [allW] at hw
            exact (hpost w hw).2.2
        · rw [hp2] at h
          dsimp only at h
          have hperm2 := popMin_perm hp2
          by_cases hwv : w.2.isEmpty = true
          · rw [if_neg (by simp [hwv])] at h
            cases h
            refine ⟨⟨?_, ?_, ?_⟩, ?_⟩
            · intro u hu
              simp only [allW] at hu
              obtain ⟨h1, h2, _⟩ := hpost u hu
              exact ⟨h1, h2⟩
            · intro c' hc'; cases hc'
            · simpa [allW] using hnd_heap2
            · intro c0 hc0 u hu
              cases hc0
              simp only [allW] at hu
              exact (hpost u hu).2.2
          · rw [if_pos (by simp [hwv])] at h
            cases h
            have hmem2 : ∀ u ∈ allW ⟨rest, some w⟩, u ∈ heap2 := by
              intro u hu
              apply hperm2.symm.mem_iff.mp
              simpa [allW] using hu
            refine ⟨⟨?_, ?_, ?_⟩, ?_⟩
            · intro u hu
              obtain ⟨h1, h2, _⟩ := hpost u (hmem2 u hu)
              exact ⟨h1, h2⟩
            · intro c' hc' u hu
              simp only at hc'
              cases hc'
              exact popMin_min hp2 u hu
            · have : (allW ⟨rest, some w⟩).map Prod.fst =
                  ((w :: rest).map Prod.fst) := by simp [allW]
              rw [this]
              rw [← ((hperm2.map Prod.fst).nodup_iff :)]
              exact hnd_heap2
            · intro c0 hc0 u hu
              cases hc0
              exact (hpost u (hmem2 u hu)).2.2
      · rw [hl] at h
        cases h
      · rw [hl] at h
        cases h

/-- Discharge `InvM` for a concrete state by computation. -/
theorem invM_of_checks {m : MergeIter}
    (h1 : (allW m).all (fun w => !w.2.isEmpty && wfChild w.2) = true)
    (h2 : (match m.current with
           | some c => m.iters.all (fun w => wLe c w)
           | none => true) = true)
    (h3 : ((allW m).map Prod.fst).Nodup) : InvM m := by
  refine ⟨?_, ?_, h3⟩
  · intro w hw
    rw [List.all_eq_true] at h1
    have := h1 w hw
    simp only [Bool.and_eq_true, Bool.not_eq_true'] at this
    exact ⟨isEmpty_false_iff.mp this.1, this.2⟩
  · intro c hc w hw
    rw [hc] at h2
    simp only at h2
    rw [List.all_eq_true] at h2
    exact h2 w hw

theorem emitted_chain :
    ∀ n m, InvM m →
      List.Chain' (fun a b : Bytes × Bytes => ltB a.1 b.1 = true)
        (emittedFrom n m) := by
  intro n
  induction n with
  | zero =>
    intro m _
    rw [emittedFrom]
    exact List.chain'_nil
  | succ n ih =>
    intro m hinv
    rw [emittedFrom]
    rcases hc : m.current with _ | c
    · exact List.chain'_nil
    · dsimp only
      by_cases hce : c.2.isEmpty = true
      · rw [if_pos hce]
        exact List.chain'_nil
      · rw [if_neg hce]
        rcases hn : MergeIterator.next m with m'' | _ | _ | _
        · dsimp only
          obtain ⟨hinv', hkeys⟩ := invM_next hinv hn
          rw [List.chain'_cons']
          constructor
          · intro y hy
            cases n with
            | zero =>
              rw [emittedFrom] at hy
              cases hy
            | succ n' =>
              rw [emittedFrom] at hy
              rcases hc' : m''.current with _ | c'
              · rw [hc'] at hy
                cases hy
              · rw [hc'] at hy
                dsimp only at hy
                by_cases hce' : c'.2.isEmpty = true
                · rw [if_pos hce'] at hy
                  cases hy
                · rw [if_neg hce'] at hy
                  simp only [List.head?_cons, Option.mem_def, Option.some.injEq] at hy
                  subst hy
                  have hc'_all : c' ∈ allW m'' := by simp [allW, hc']
                  exact hkeys c hc c' hc'_all
          · exact ih m'' hinv'
        · exact List.chain'_singleton _
        · exact List.chain'_singleton _
        · exact List.chain'_singleton _

/-- Claim C6 (confirmed): over child iterators with strictly-ascending
keys, the keys of the entries emitted across successive `next` calls are
strictly increasing — duplicates never appear in consecutive outputs. -/
theorem merge_output_keys_strictly_ascending
    (srcs : List Child) (h : ∀ c ∈ srcs, wfChild c = true) (n : Nat) :
    List.Chain' (fun a b : Bytes × Bytes => ltB a.1 b.1 = true)
      (emittedFrom n (MergeIterator.create srcs)) :=
  emitted_chain n _ (invM_create h)

/-- Witness for C6 at the spec's merge-priority scenario. -/
theorem merge_output_keys_strictly_ascending_witness :
    List.Chain' (fun a b : Bytes × Bytes => ltB a.1 b.1 = true)
      (emittedFrom 4 (MergeIterator.create
        [[([120], [49]), ([121], [50])], [([120], [57]), ([122], [51])]])) :=
  merge_output_keys_strictly_ascending _ (by decide) 4

/-- Claim C1 (counterexample): `create` does not skip tombstones.  Over
the single strictly-ascending source `[("a", "")]` the zero-valued key
"a" IS the current entry immediately after construction — the merge
iterator is valid, its key is "a" and its value is the empty string, so
the key is not omitted from the output stream. -/
theorem merge_create_tombstone_is_current :
    wfChild [([97], [])] = true ∧
    MergeIterator.isValid (MergeIterator.create [[([97], [])]]) = true ∧
    MergeIterator.keyOf (MergeIterator.create [[([97], [])]]) = some [97] ∧
    MergeIterator.valueOf (MergeIterator.create [[([97], [])]]) = some [] := by
  decide

/-- Claim C1 (amended): tombstones are skipped during `next` but not at
`create`: after any successful `next`, the new current entry (when one
exists) always carries a non-empty value; a key whose highest-priority
value is empty can appear as the current entry only immediately after
construction. -/
theorem merge_next_never_settles_on_tombstone
    (m m' : MergeIter) (h : MergeIterator.next m = .ok m') :
    ∀ c', m'.current = some c' → c'.2 ≠ [] ∧ headVal c'.2 ≠ [] := by
  intro c' hc'
  unfold MergeIterator.next at h
  rcases hc : m.current with _ | c
  · rw [hc] at h
    cases h
  · rw [hc] at h
    dsimp only at h
    by_cases hu8 : (!isUtf8 (headKey c.2)) = true
    · rw [if_pos hu8] at h
      cases h
    · rw [if_neg hu8] at h
      rcases hl : loopNext (fuelFor (c :: m.iters)) (headKey c.2) (c :: m.iters)
        with heap2 | _ | _
      · rw [hl] at h
        dsimp only at h
        rcases loopNext_min_val _ _ _ _ hl with he | ⟨w0, rest0, hsh, hval, hnv, hmin0⟩
        · subst he
          rw [(popMin_nil_iff.mpr rfl :)] at h
          cases h
          cases hc'
        · subst hsh
          rw [popMin_cons_of_min hmin0] at h
          dsimp only at h
          rw [if_pos (by simpa using isEmpty_false_iff.mpr hval)] at h
          cases h
          simp only at hc'
          cases hc'
          exact ⟨hval, hnv⟩
      · rw [hl] at h
        cases h
      · rw [hl] at h
        cases h

/-- Witness for the amended C1 at the spec's tombstone scenario. -/
theorem merge_next_never_settles_on_tombstone_witness :
    ((1, [([109], [119])]) : W).2 ≠ [] ∧
      headVal ((1, [([109], [119])]) : W).2 ≠ [] :=
  merge_next_never_settles_on_tombstone
    (MergeIterator.create [[([107], [])], [([107], [118]), ([109], [119])]])
    ⟨[], some (1, [([109], [119])])⟩ (by decide) _ rfl

/-- Claim C3 (code bug): `MergeIterator::next` does not return ok for
every byte-string key: it routes keys and values through
`String::from_utf8` and propagates the error, so over a perfectly valid
child iterator holding the non-UTF-8 key `[0xFF]` (whose `next` never
fails and no storage read occurs), `next` returns an error. -/
theorem merge_next_err_on_non_utf8_key :
    wfChild [([255], [118])] = true ∧
    MergeIterator.isValid (MergeIterator.create [[([255], [118])]]) = true ∧
    MergeIterator.next (MergeIterator.create [[([255], [118])]]) = .err := by
  decide

/-- Claim C4 (code bug): `next` on an invalid merge iterator is not a
no-op ok — the code unwraps `current`, so in the invalid state with no
current entry (e.g. right after `create` of an empty vector) it panics
instead of returning ok. -/
theorem merge_next_on_invalid_panics :
    MergeIterator.isValid (MergeIterator.create []) = false ∧
    MergeIterator.next (MergeIterator.create []) = .panic := by
  decide

/-- Claim C2 (confirmed): the heap order is smaller key first with ties
broken by smaller source index; while the merge iterator stands on a key
that another (necessarily lower-priority) source also still holds, that
source is positioned at the same key with a larger index, so the emitted
value is the smallest-index source's; and a successful `next` consumes
the key from every source without emitting it again. -/
theorem merge_duplicate_key_priority
    (m : MergeIter) (hinv : InvM m) (c : W) (hc : m.current = some c) :
    (∀ w1 w2 : W, wLe w1 w2 = true ↔
        (ltB (headKey w1.2) (headKey w2.2) = true ∨
          (headKey w1.2 = headKey w2.2 ∧ w1.1 ≤ w2.1))) ∧
    (∀ w ∈ m.iters, headKey c.2 ∈ keysOf w.2 →
        headKey w.2 = headKey c.2 ∧ c.1 < w.1) ∧
    (∀ m', MergeIterator.next m = .ok m' →
        ∀ w ∈ allW m', headKey c.2 ∉ keysOf w.2) := by
  obtain ⟨hall, hmin, hnd⟩ := hinv
  refine ⟨fun w1 w2 => wLe_char, ?_, ?_⟩
  · intro w hw hkmem
    have hw_all : w ∈ allW m := by simp [allW, hc, hw]
    have hwf_w : wfChild w.2 = true := (hall w hw_all).2
    have h1 : leB (headKey w.2) (headKey c.2) = true :=
      wfChild_keys_ge_head hwf_w _ hkmem
    have h2 : leB (headKey c.2) (headKey w.2) = true :=
      wLe_key_le (hmin c hc w hw)
    have hkeq : headKey w.2 = headKey c.2 := leB_antisymm h1 h2
    refine ⟨hkeq, ?_⟩
    have hle_idx : c.1 ≤ w.1 := by
      have := (wLe_char).mp (hmin c hc w hw)
      rcases this with hlt | ⟨_, hle⟩
      · rw [hkeq] at hlt
        rw [ltB_irrefl] at hlt
        cases hlt
      · exact hle
    have hne_idx : c.1 ≠ w.1 := by
      intro heq
      have hall_eq : allW m = c :: m.iters := by simp [allW, hc]
      rw [hall_eq] at hnd
      simp only [List.map_cons, List.nodup_cons] at hnd
      exact hnd.1 (heq ▸ List.mem_map_of_mem Prod.fst hw)
    omega
  · intro m' hnext w hw hkmem
    obtain ⟨⟨hall', _, _⟩, hkeys⟩ := invM_next ⟨hall, hmin, hnd⟩ hnext
    have hlt : ltB (headKey c.2) (headKey w.2) = true := hkeys c hc w hw
    have hwf_w : wfChild w.2 = true := (hall' w hw).2
    have hge : leB (headKey w.2) (headKey c.2) = true :=
      wfChild_keys_ge_head hwf_w _ hkmem
    have := ltB_of_lt_of_le hlt hge
    rw [ltB_irrefl] at this
    cases this

/-- Witness for C2 at the spec's merge-priority scenario: sources 0 and
1 both hold key "x"; the current entry is source 0's. -/
theorem merge_duplicate_key_priority_witness :
    (∀ w1 w2 : W, wLe w1 w2 = true ↔
        (ltB (headKey w1.2) (headKey w2.2) = true ∨
          (headKey w1.2 = headKey w2.2 ∧ w1.1 ≤ w2.1))) ∧
    (∀ w ∈ ((⟨[(1, [([120], [57]), ([122], [51])])],
        some (0, [([120], [49]), ([121], [50])])⟩ : MergeIter)).iters,
        headKey ((0, [([120], [49]), ([121], [50])]) : W).2 ∈ keysOf w.2 →
        headKey w.2 = headKey ((0, [([120], [49]), ([121], [50])]) : W).2 ∧
          (0 : Nat) < w.1) ∧
    (∀ m', MergeIterator.next
        ((⟨[(1, [([120], [57]), ([122], [51])])],
          some (0, [([120], [49]), ([121], [50])])⟩ : MergeIter)) = .ok m' →
        ∀ w ∈ allW m',
          headKey ((0, [([120], [49]), ([121], [50])]) : W).2 ∉ keysOf w.2) :=
  merge_duplicate_key_priority _
    (invM_of_checks (by decide) (by decide) (by decide)) _ rfl

theorem putU16s_length (l : List Nat) : (putU16s l).length = 2 * l.length := by
  induction l with
  | nil => rfl
  | cons o rest ih =>
    simp only [putU16s, putU16, List.length_append, List.length_cons,
      List.length_nil, ih]
    omega

theorem getU16_putU16 {o : Nat} (h : o < 65536) :
    getU16 (o / 256 % 256) (o % 256) = o := by
  unfold getU16
  omega

theorem getU16s_putU16s {l : List Nat} (h : ∀ o ∈ l, o < 65536) :
    getU16s (putU16s l) = some l := by
  induction l with
  | nil => rfl
  | cons o rest ih =>
    have ho : o < 65536 := h o (List.mem_cons_self o rest)
    have hstep : putU16s (o :: rest) =
        (o / 256 % 256) :: (o % 256) :: putU16s rest := by
      simp [putU16s, putU16]
    rw [hstep]
    simp only [getU16s]
    rw [ih (fun x hx => h x (List.mem_cons_of_mem o hx))]
    simp [getU16_putU16 ho]

/-- Claim C7 (confirmed): for a block with fewer than `2^16` entries
(offsets being `u16` values), `Block::decode (Block::encode b)` returns
a block with exactly the same payload and offsets, so iterating the
decoded block yields the original entry sequence. -/
theorem block_encode_decode_roundtrip
    (b : Block) (hn : b.offsets.length < 65536)
    (ho : ∀ o ∈ b.offsets, o < 65536) :
    Block.decode (Block.encode b) = some b := by
  unfold Block.encode Block.decode
  have hlen : (b.data ++ putU16s b.offsets ++ putU16 b.offsets.length).length =
      b.data.length + 2 * b.offsets.length + 2 := by
    simp only [List.length_append, putU16s_length, putU16, List.length_cons,
      List.length_nil]
  rw [hlen]
  rw [if_neg (by omega)]
  have hcount_hi :
      (b.data ++ putU16s b.offsets ++ putU16 b.offsets.length).getD
        (b.data.length + 2 * b.offsets.length + 2 - 2) 0 =
        b.offsets.length / 256 % 256 := by
    have h2 : b.data.length + 2 * b.offsets.length + 2 - 2 =
        (b.data ++ putU16s b.offsets).length + 0 := by
      simp only [List.length_append, putU16s_length]
      omega
    rw [h2]
    rw [List.getD_eq_getElem?_getD, List.getElem?_append_right (by omega)]
    simp [putU16]
  have hcount_lo :
      (b.data ++ putU16s b.offsets ++ putU16 b.offsets.length).getD
        (b.data.length + 2 * b.offsets.length + 2 - 1) 0 =
        b.offsets.length % 256 := by
    have h2 : b.data.length + 2 * b.offsets.length + 2 - 1 =
        (b.data ++ putU16s b.offsets).length + 1 := by
      simp only [List.length_append, putU16s_length]
      omega
    rw [h2]
    rw [List.getD_eq_getElem?_getD, List.getElem?_append_right (by omega)]
    simp [putU16]
  rw [hcount_hi, hcount_lo, getU16_putU16 hn]
  rw [if_neg (by omega)]
  have hdataEnd : b.data.length + 2 * b.offsets.length + 2 -
      2 * b.offsets.length - 2 = b.data.length := by omega
  rw [hdataEnd]
  dsimp only
  have hdrop : (b.data ++ putU16s b.offsets ++ putU16 b.offsets.length).drop
      b.data.length = putU16s b.offsets ++ putU16 b.offsets.length := by
    rw [List.append_assoc]
    rw [List.drop_left]
  have htake2n : ((putU16s b.offsets ++ putU16 b.offsets.length).take
      (2 * b.offsets.length)) = putU16s b.offsets := by
    rw [← putU16s_length b.offsets]
    rw [List.take_left]
  rw [hdrop, htake2n, getU16s_putU16s ho]
  have htake : (b.data ++ putU16s b.offsets ++ putU16 b.offsets.length).take
      b.data.length = b.data := by
    rw [List.append_assoc]
    rw [List.take_left]
  rw [htake]

/-- Witness for C7 at the spec's block round-trip scenario shape. -/
theorem block_encode_decode_roundtrip_witness :
    Block.decode (Block.encode ⟨[0, 1, 2, 3], [0, 300]⟩) =
      some ⟨[0, 1, 2, 3], [0, 300]⟩ :=
  block_encode_decode_roundtrip _ (by decide) (by decide)

/-- Claim C8 (counterexample): a meta section whose declared count `0`
disagrees with its one appended record decodes successfully to one meta
— no CorruptionError is surfaced for the inconsistency. -/
theorem meta_decode_ignores_declared_count :
    declaredMetaCount
        [0, 0, 0, 0, 0, 0, 0, 0, 0, 1, 97, 0, 1, 98] = some 0 ∧
    BlockMeta.decode_block_meta
        [0, 0, 0, 0, 0, 0, 0, 0, 0, 1, 97, 0, 1, 98] =
      some [⟨0, [97], [98]⟩] := by
  decide

/-- Claim C8 (amended): the decoders perform no consistency validation
and never produce a CorruptionError: `Block::decode` silently accepts an
offset far outside the payload, `decode_block_meta` ignores the declared
count and decodes whatever records remain, and a buffer too short for
the declared block count aborts with a panic (usize underflow), not an
error return. -/
theorem decode_surfaces_no_corruption_error :
    Block.decode [0, 200, 0, 1] = some ⟨[], [200]⟩ ∧
    BlockMeta.decode_block_meta
        [0, 0, 0, 0, 0, 0, 0, 0, 0, 1, 97, 0, 1, 98] =
      some [⟨0, [97], [98]⟩] ∧
    Block.decode [0, 5] = none := by
  decide

theorem countLtLoop_le_length (ms : List (Bytes × Bytes)) (k : Bytes) :
    countLtLoop ms k ≤ ms.length := by
  induction ms with
  | nil => exact Nat.le_refl 0
  | cons m tl ih =>
    rw [countLtLoop]
    by_cases h : ltB m.2 k = true
    · rw [if_pos h]
      simpa using ih
    · rw [if_neg h]
      simp

theorem countLtLoop_below (ms : List (Bytes × Bytes)) (k : Bytes) :
    ∀ j, j < countLtLoop ms k → ltB (ms.getD j ([], [])).2 k = true := by
  induction ms with
  | nil => intro j hj; rw [countLtLoop] at hj; omega
  | cons m tl ih =>
    intro j hj
    rw [countLtLoop] at hj
    by_cases h : ltB m.2 k = true
    · rw [if_pos h] at hj
      cases j with
      | zero => simpa using h
      | succ j' =>
        have := ih j' (by omega)
        simpa using this
    · rw [if_neg h] at hj
      omega

theorem countLtLoop_at (ms : List (Bytes × Bytes)) (k : Bytes)
    (h : countLtLoop ms k < ms.length) :
    leB k (ms.getD (countLtLoop ms k) ([], [])).2 = true := by
  induction ms with
  | nil => simp at h
  | cons m tl ih =>
    rw [countLtLoop] at h ⊢
    by_cases hm : ltB m.2 k = true
    · rw [if_pos hm] at h ⊢
      have := ih (by simpa using h)
      simpa using this
    · rw [if_neg hm] at h ⊢
      simpa using leB_of_ltB_false (by simpa using hm)

/-- Claim C9 (confirmed): under the table invariant, `find_block_idx`
returns `0` whenever the key falls outside `[first_key, last_key]`, and
otherwise the smallest block index whose meta `last_key` is at least the
key. -/
theorem find_block_idx_correct (t : SsTable) (k : Bytes) (hwf : wfTable t) :
    ((ltB k t.first_key || ltB t.last_key k) = true →
      SsTable.find_block_idx t k = 0) ∧
    ((ltB k t.first_key || ltB t.last_key k) = false →
      SsTable.find_block_idx t k < t.block_meta.length ∧
      leB k (lK t (SsTable.find_block_idx t k)) = true ∧
      (∀ j, j < SsTable.find_block_idx t k → ltB (lK t j) k = true)) := by
  obtain ⟨hne, hlen, hblocks, hchain, hfirst, hlast⟩ := hwf
  constructor
  · intro h
    unfold SsTable.find_block_idx
    rw [if_pos h]
  · intro h
    unfold SsTable.find_block_idx
    rw [if_neg (by simp [h])]
    have hk_le_last : leB k t.last_key = true := by
      rw [Bool.or_eq_false_iff] at h
      exact leB_of_ltB_false h.2
    have hn : 0 < t.block_meta.length := by
      cases hc : t.block_meta with
      | nil => exact absurd hc hne
      | cons a b => simp
    have hlt_n : countLtLoop t.block_meta k < t.block_meta.length := by
      rcases Nat.lt_or_ge (countLtLoop t.block_meta k)
        t.block_meta.length with hlt | hge
      · exact hlt
      · exfalso
        have heq : countLtLoop t.block_meta k = t.block_meta.length :=
          Nat.le_antisymm (countLtLoop_le_length _ _) hge
        have hup := countLtLoop_below t.block_meta k
          (t.block_meta.length - 1) (by omega)
        rw [hlast] at hk_le_last
        unfold lK at hk_le_last
        have := ltB_of_le_of_lt hk_le_last hup
        rw [ltB_irrefl] at this
        cases this
    refine ⟨hlt_n, ?_, ?_⟩
    · exact countLtLoop_at t.block_meta k hlt_n
    · intro j hj
      exact countLtLoop_below t.block_meta k j hj

/-- Witness for C9 on a two-block table with a key inside the range. -/
theorem find_block_idx_correct_witness :
    SsTable.find_block_idx demoTable [99] < demoTable.block_meta.length ∧
    leB [99] (lK demoTable (SsTable.find_block_idx demoTable [99])) = true ∧
    (∀ j, j < SsTable.find_block_idx demoTable [99] →
      ltB (lK demoTable j) [99] = true) :=
  (find_block_idx_correct demoTable [99] (by decide)).2 (by decide)

/-- Claim C10 (confirmed): `MemTableIterator::next` always returns ok;
once the range cursor is exhausted the cached item becomes the pair of
empty byte strings, `is_valid()` is false, and the resulting state again
has an exhausted cursor, so every further `next` returns ok and leaves
the iterator invalid. -/
theorem memtable_iterator_next_always_ok (it : MemTableIterator) :
    (∃ it', MemTableIterator.next it = .ok it') ∧
    (it.iter = [] →
      MemTableIterator.next it = .ok ⟨[], ([], [])⟩ ∧
      MemTableIterator.is_valid (⟨[], ([], [])⟩ : MemTableIterator) = false) := by
  constructor
  · exact ⟨_, rfl⟩
  · intro h
    rw [MemTableIterator.next, h]
    exact ⟨rfl, rfl⟩

/-- Witness for C10 at a concrete exhausted iterator. -/
theorem memtable_iterator_next_always_ok_witness :
    MemTableIterator.next ⟨[], ([0], [1])⟩ = .ok ⟨[], ([], [])⟩ ∧
    MemTableIterator.is_valid (⟨[], ([], [])⟩ : MemTableIterator) = false :=
  (memtable_iterator_next_always_ok ⟨[], ([0], [1])⟩).2 rfl

/-- Claim C5 (counterexample): on a well-formed one-block table holding
only key "a", seeking the fresh iterator to "b" (which exceeds
`last_key`) leaves the inner block iterator invalid but keeps
`blk_idx = 0 < num_blocks`, so `is_valid()` returns true — the claim
says the iterator must be invalid, and with it the `key() ≥ k`
guarantee under `is_valid()` fails as well. -/
theorem sst_seek_past_last_key_still_valid :
    wfTable (⟨[([97], [97])], [[([97], [49])]], [97], [97]⟩ : SsTable) ∧
    SsTableIterator.create_and_seek_to_key
        (⟨[([97], [97])], [[([97], [49])]], [97], [97]⟩ : SsTable) [98] =
      some ⟨⟨[([97], [49])], 1⟩, 0⟩ ∧
    BlockIter.isValid (⟨[([97], [49])], 1⟩ : BlockIter) = false ∧
    SsTableIterator.is_valid
        (⟨[([97], [97])], [[([97], [49])]], [97], [97]⟩ : SsTable)
        ⟨⟨[([97], [49])], 1⟩, 0⟩ = true := by
  decide

theorem leB_false_lt {a b : Bytes} (h : leB a b = false) : ltB b a = true := by
  rw [ltB_iff]
  rw [← cmpB_gt_iff]
  rw [leB] at h
  rcases hc : cmpB a b with _ | _ | _ <;> rw [hc] at h <;> revert h <;> decide

theorem ltB_leB_false {a b : Bytes} (h : ltB a b = true) : leB b a = false := by
  cases hc : leB b a
  · rfl
  · have := ltB_of_le_of_lt hc h
    rw [ltB_irrefl] at this
    cases this

theorem wfChild_keys_le_last {c : Child} (h : wfChild c = true) :
    ∀ e ∈ c, leB e.1 (lastEntryKey c) = true := by
  induction c with
  | nil => intro e he; cases he
  | cons e0 tl ih =>
    obtain ⟨k0, v0⟩ := e0
    intro e he
    cases tl with
    | nil =>
      rcases List.mem_cons.mp he with he | he
      · rw [he]
        simp only [lastEntryKey, List.getLast?_singleton]
        exact leB_refl _
      · cases he
    | cons e1 tl1 =>
      have hlast : lastEntryKey ((k0, v0) :: e1 :: tl1) =
          lastEntryKey (e1 :: tl1) := by
        simp [lastEntryKey, List.getLast?_cons_cons]
      rw [hlast]
      rcases List.mem_cons.mp he with he | he
      · rw [he]
        have h1 : ltB k0 (headKey (e1 :: tl1)) = true :=
          wfChild_head_lt_tail h (by simp)
        have h2 : leB e1.1 (lastEntryKey (e1 :: tl1)) = true :=
          ih (wfChild_tail h) e1 (List.mem_cons_self _ _)
        have h1' : ltB k0 e1.1 = true := by
          simpa [headKey] using h1
        exact leB_trans (ltB_le h1') h2
      · exact ih (wfChild_tail h) e he

theorem find?_append_of_forall_false {p : Bytes × Bytes → Bool}
    {l1 l2 : Child} (h : ∀ e ∈ l1, p e = false) :
    List.find? p (l1 ++ l2) = List.find? p l2 := by
  induction l1 with
  | nil => rfl
  | cons e tl ih =>
    simp only [List.cons_append, List.find?]
    rw [h e (List.mem_cons_self _ _)]
    exact ih (fun x hx => h x (List.mem_cons_of_mem e hx))

theorem find?_append_of_some {p : Bytes × Bytes → Bool}
    {l1 l2 : Child} {e : Bytes × Bytes} (h : List.find? p l1 = some e) :
    List.find? p (l1 ++ l2) = some e := by
  induction l1 with
  | nil => cases h
  | cons e0 tl ih =>
    simp only [List.cons_append, List.find?]
    rw [List.find?] at h
    cases hp : p e0 with
    | true =>
      rw [hp] at h
      simpa using h
    | false =>
      rw [hp] at h
      exact ih h

/-- Under well-formedness, the block seek lands exactly on the first
entry whose key is at least the target. -/
theorem blockSeekIdx_eq_find {ch : Child} (h : wfChild ch = true) (k : Bytes) :
    ch[blockSeekIdx ch k]? = List.find? (fun e => leB k e.1) ch := by
  induction ch with
  | nil => rfl
  | cons e tl ih =>
    obtain ⟨key, v⟩ := e
    have hkey : key ≠ [] := by
      have := headKey_ne_nil (show ((key, v) :: tl : Child) ≠ [] by simp) h
      simpa [headKey] using this
    rw [blockSeekIdx]
    rw [if_neg (by simpa using hkey)]
    by_cases hle : leB k key = true
    · rw [if_pos hle]
      simp only [List.getElem?_cons_zero, List.find?]
      simp [hle]
    · rw [if_neg hle]
      have hle' : leB k key = false := by simpa using hle
      simp only [List.getElem?_cons_succ, List.find?]
      simp only [hle']
      exact ih (wfChild_tail h)

/-- When every key of a well-formed block is below the target, the seek
runs off the end. -/
theorem blockSeekIdx_all_lt {c : Child} (h : wfChild c = true) {k : Bytes}
    (hall : ∀ e ∈ c, ltB e.1 k = true) : blockSeekIdx c k = c.length := by
  induction c with
  | nil => rfl
  | cons e tl ih =>
    obtain ⟨key, v⟩ := e
    have hkey : key ≠ [] := by
      have := headKey_ne_nil (show ((key, v) :: tl : Child) ≠ [] by simp) h
      simpa [headKey] using this
    rw [blockSeekIdx]
    rw [if_neg (by simpa using hkey)]
    have hlt : ltB key k = true := by
      simpa using hall (key, v) (List.mem_cons_self _ _)
    rw [if_neg (by simpa using ltB_leB_false hlt)]
    simp only [List.length_cons]
    rw [ih (wfChild_tail h) (fun e he => hall e (List.mem_cons_of_mem _ he))]

theorem wfT_fK_le_lK {t : SsTable} (hwf : wfTable t) {i : Nat}
    (hi : i < t.block_meta.length) : leB (fK t i) (lK t i) = true := by
  obtain ⟨_, _, hblocks, _, _, _⟩ := hwf
  obtain ⟨hne, hwfc, hfk, hlk⟩ := hblocks i hi
  rw [hfk, hlk]
  cases hc : blk t i with
  | nil => exact absurd hc hne
  | cons e tl =>
    have hwfc' : wfChild (e :: tl) = true := by rw [← hc]; exact hwfc
    have hle := wfChild_keys_le_last hwfc' e (List.mem_cons_self _ _)
    have hh : headKey (e :: tl) = e.1 := by cases e; rfl
    rw [hh]
    exact hle

theorem wfT_lK_mono {t : SsTable} (hwf : wfTable t) {i j : Nat}
    (hij : i ≤ j) (hj : j < t.block_meta.length) :
    leB (lK t i) (lK t j) = true := by
  induction j with
  | zero =>
    have : i = 0 := by omega
    rw [this]
    exact leB_refl _
  | succ j' ih =>
    rcases Nat.lt_or_ge i (j' + 1) with h | h
    · have h1 : leB (lK t i) (lK t j') = true := ih (by omega) (by omega)
      have h2 : ltB (lK t j') (fK t (j' + 1)) = true := by
        obtain ⟨_, _, _, hchain, _, _⟩ := hwf
        exact hchain j' (by omega)
      have h3 : leB (fK t (j' + 1)) (lK t (j' + 1)) = true :=
        wfT_fK_le_lK hwf hj
      exact leB_trans h1 (leB_trans (ltB_le h2) h3)
    · have : i = j' + 1 := by omega
      rw [this]
      exact leB_refl _

theorem wfT_entry_bounds {t : SsTable} (hwf : wfTable t) {i : Nat}
    (hi : i < t.block_meta.length) :
    ∀ e ∈ blk t i, leB (fK t i) e.1 = true ∧ leB e.1 (lK t i) = true := by
  obtain ⟨_, _, hblocks, _, _, _⟩ := hwf
  obtain ⟨hne, hwfc, hfk, hlk⟩ := hblocks i hi
  intro e he
  constructor
  · rw [hfk]
    exact wfChild_keys_ge_head hwfc e.1 (List.mem_map_of_mem Prod.fst he)
  · rw [hlk]
    exact wfChild_keys_le_last hwfc e he

theorem wfChild_key_ne_nil {ch : Child} (h : wfChild ch = true) :
    ∀ e ∈ ch, e.1 ≠ [] := by
  induction ch with
  | nil => intro e he; cases he
  | cons e0 tl ih =>
    intro e he
    rcases List.mem_cons.mp he with he | he
    · rw [he]
      obtain ⟨k0, v0⟩ := e0
      simp only [wfChild, Bool.and_eq_true, Bool.not_eq_true'] at h
      exact isEmpty_false_iff.mp h.1.1
    · exact ih (wfChild_tail h) e he

theorem lastEntry_mem {ch : Child} (h : ch ≠ []) :
    ∃ e ∈ ch, e.1 = lastEntryKey ch := by
  induction ch with
  | nil => exact absurd rfl h
  | cons e0 tl ih =>
    cases tl with
    | nil =>
      refine ⟨e0, List.mem_cons_self _ _, ?_⟩
      simp [lastEntryKey, List.getLast?_singleton]
    | cons e1 tl1 =>
      obtain ⟨e, he, hk⟩ := ih (by simp)
      refine ⟨e, List.mem_cons_of_mem _ he, ?_⟩
      rw [hk]
      simp [lastEntryKey, List.getLast?_cons_cons]

theorem blocks_lookup {t : SsTable} {i : Nat} (h : i < t.blocks.length) :
    t.blocks[i]? = some (blk t i) := by
  rw [List.getElem?_eq_getElem h]
  unfold blk
  rw [List.getD_eq_getElem?_getD, List.getElem?_eq_getElem h]
  rfl

theorem countLt_lt_length {t : SsTable} (hwf : wfTable t) {k : Bytes}
    (hlast : leB k t.last_key = true) :
    countLtLoop t.block_meta k < t.block_meta.length := by
  obtain ⟨hne, _, _, _, _, hlastk⟩ := hwf
  have hn : 0 < t.block_meta.length := by
    cases hc : t.block_meta with
    | nil => exact absurd hc hne
    | cons a b => simp
  rcases Nat.lt_or_ge (countLtLoop t.block_meta k) t.block_meta.length
    with hlt | hge
  · exact hlt
  · exfalso
    have heq : countLtLoop t.block_meta k = t.block_meta.length :=
      Nat.le_antisymm (countLtLoop_le_length _ _) hge
    have hup := countLtLoop_below t.block_meta k
      (t.block_meta.length - 1) (by omega)
    rw [hlastk] at hlast
    unfold lK at hlast
    have := ltB_of_le_of_lt hlast hup
    rw [ltB_irrefl] at this
    cases this

theorem countLt_le_of_le {t : SsTable} (_hwf : wfTable t) {k : Bytes}
    (_hlast : leB k t.last_key = true) {mid : Nat}
    (_hmid : mid < t.block_meta.length) (h : leB k (lK t mid) = true) :
    countLtLoop t.block_meta k ≤ mid := by
  by_contra hc
  have hlt : ltB (lK t mid) k = true :=
    countLtLoop_below t.block_meta k mid (by omega)
  have := ltB_of_le_of_lt h hlt
  rw [ltB_irrefl] at this
  cases this

theorem countLt_gt_of_lt {t : SsTable} (hwf : wfTable t) {k : Bytes}
    (hlast : leB k t.last_key = true) {mid : Nat}
    (hmid : mid < t.block_meta.length) (h : ltB (lK t mid) k = true) :
    mid < countLtLoop t.block_meta k := by
  by_contra hc
  have hjn := countLt_lt_length hwf hlast
  have hj_at := countLtLoop_at t.block_meta k hjn
  have hmono : leB (lK t (countLtLoop t.block_meta k)) (lK t mid) = true :=
    wfT_lK_mono hwf (by omega) hmid
  have : leB k (lK t mid) = true := leB_trans hj_at hmono
  have := ltB_of_le_of_lt this h
  rw [ltB_irrefl] at this
  cases this

theorem binSearchLoop_correct (t : SsTable) (k : Bytes) (hwf : wfTable t)
    (hfirst : leB t.first_key k = true) (hlast : leB k t.last_key = true) :
    ∀ fuel left right,
      right < t.block_meta.length →
      left ≤ countLtLoop t.block_meta k →
      (countLtLoop t.block_meta k ≤ right ∨
        (right + 1 = countLtLoop t.block_meta k ∧
          ltB k (fK t (countLtLoop t.block_meta k)) = true)) →
      right - left < fuel →
      ∃ li, binSearchLoop t k fuel left right = some li ∧
        (li = countLtLoop t.block_meta k ∨
          (li + 1 = countLtLoop t.block_meta k ∧
            ltB k (fK t (countLtLoop t.block_meta k)) = true)) := by
  have hjn : countLtLoop t.block_meta k < t.block_meta.length :=
    countLt_lt_length hwf hlast
  have hj_at := countLtLoop_at t.block_meta k hjn
  have hj_below := countLtLoop_below t.block_meta k
  obtain ⟨hmne, hmlen, hblocks, hchain, hfk0, hlkn⟩ := hwf
  intro fuel
  induction fuel with
  | zero =>
    intro left right _ _ _ hfuel
    omega
  | succ fuel ih =>
    intro left right hrn hleft hinv hfuel
    rw [binSearchLoop]
    by_cases hlr : left < right
    · rw [if_pos hlr]
      set mid := left + (right - left) / 2 with hmid_def
      have hmid_ge : left ≤ mid := by omega
      have hmid_lt : mid < right := by omega
      have hmid_n : mid < t.block_meta.length := by omega
      by_cases hin : (leB (fK t mid) k && leB k (lK t mid)) = true
      · rw [if_pos hin]
        rw [Bool.and_eq_true] at hin
        have hj_le : countLtLoop t.block_meta k ≤ mid :=
          countLt_le_of_le ⟨hmne, hmlen, hblocks, hchain, hfk0, hlkn⟩
            hlast hmid_n hin.2
        have hj_ge : mid ≤ countLtLoop t.block_meta k := by
          by_contra hc
          have hm1 : countLtLoop t.block_meta k ≤ mid - 1 := by omega
          have hmono : leB (lK t (countLtLoop t.block_meta k))
              (lK t (mid - 1)) = true :=
            wfT_lK_mono ⟨hmne, hmlen, hblocks, hchain, hfk0, hlkn⟩
              hm1 (by omega)
          have hch : ltB (lK t (mid - 1)) (fK t (mid - 1 + 1)) = true :=
            hchain (mid - 1) (by omega)
          have hm1' : mid - 1 + 1 = mid := by omega
          rw [hm1'] at hch
          have h1 : leB k (lK t (mid - 1)) = true := leB_trans hj_at hmono
          have h2 : ltB k (fK t mid) = true := ltB_of_le_of_lt h1 hch
          have := ltB_of_lt_of_le h2 hin.1
          rw [ltB_irrefl] at this
          cases this
        exact ⟨mid, rfl, Or.inl (by omega)⟩
      · rw [if_neg hin]
        by_cases hflt : ltB (fK t mid) k = true
        · rw [if_pos hflt]
          have hnle : leB k (lK t mid) = false := by
            cases hc : leB k (lK t mid)
            · rfl
            · exfalso
              apply hin
              rw [Bool.and_eq_true]
              exact ⟨ltB_le hflt, hc⟩
          have hlkm : ltB (lK t mid) k = true := leB_false_lt hnle
          have hmid_j : mid < countLtLoop t.block_meta k :=
            countLt_gt_of_lt ⟨hmne, hmlen, hblocks, hchain, hfk0, hlkn⟩
              hlast hmid_n hlkm
          exact ih (mid + 1) right hrn (by omega) hinv (by omega)
        · rw [if_neg hflt]
          have hkfm : leB k (fK t mid) = true :=
            leB_of_ltB_false (by simpa using hflt)
          have hkfm_strict : ltB k (fK t mid) = true := by
            rcases leB_cases hkfm with h | h
            · exact h
            · exfalso
              apply hin
              rw [Bool.and_eq_true]
              refine ⟨?_, ?_⟩
              · rw [← h]
                exact leB_refl _
              · rw [h]
                exact wfT_fK_le_lK ⟨hmne, hmlen, hblocks, hchain, hfk0, hlkn⟩
                  hmid_n
          have hmid_pos : mid ≠ 0 := by
            intro h0
            rw [h0] at hkfm_strict
            rw [← hfk0] at hkfm_strict
            have := ltB_of_le_of_lt hfirst hkfm_strict
            rw [ltB_irrefl] at this
            cases this
          rw [if_neg hmid_pos]
          have hj_le_mid : countLtLoop t.block_meta k ≤ mid := by
            have hkl : leB k (lK t mid) = true :=
              leB_trans (ltB_le hkfm_strict)
                (wfT_fK_le_lK ⟨hmne, hmlen, hblocks, hchain, hfk0, hlkn⟩
                  hmid_n)
            exact countLt_le_of_le ⟨hmne, hmlen, hblocks, hchain, hfk0, hlkn⟩
              hlast hmid_n hkl
          have hinv' : countLtLoop t.block_meta k ≤ mid - 1 ∨
              (mid - 1 + 1 = countLtLoop t.block_meta k ∧
                ltB k (fK t (countLtLoop t.block_meta k)) = true) := by
            rcases Nat.lt_or_ge (countLtLoop t.block_meta k) mid with h | h
            · left; omega
            · right
              have : countLtLoop t.block_meta k = mid := by omega
              refine ⟨by omega, ?_⟩
              rw [this]
              exact hkfm_strict
          exact ih left (mid - 1) (by omega) hleft hinv' (by omega)
    · rw [if_neg hlr]
      refine ⟨left, rfl, ?_⟩
      rcases hinv with h | ⟨h1, h2⟩
      · left; omega
      · rcases Nat.lt_or_ge left (countLtLoop t.block_meta k) with h | h
        · right
          exact ⟨by omega, h2⟩
        · left; omega

theorem flat_prefix_all_lt {t : SsTable} (hwf : wfTable t) (k : Bytes) :
    ∀ li, li ≤ t.block_meta.length →
      (∀ j, j < li → ltB (lK t j) k = true) →
      ∀ e ∈ (t.blocks.take li).flatten, ltB e.1 k = true := by
  intro li
  induction li with
  | zero =>
    intro _ _ e he
    simp at he
  | succ li' ih =>
    intro hli hbelow e he
    rw [List.take_succ] at he
    rw [List.flatten_append _ _] at he
    rcases List.mem_append.mp he with he | he
    · exact ih (by omega) (fun j hj => hbelow j (by omega)) e he
    · have hlen : li' < t.blocks.length := by
        obtain ⟨_, hlen2, _, _, _, _⟩ := hwf
        omega
      rw [List.getElem?_eq_getElem hlen] at he
      simp only [Option.toList_some, List.flatten_cons, List.flatten_nil,
        List.append_nil] at he
      have hblk : t.blocks[li'] = blk t li' := by
        unfold blk
        rw [List.getD_eq_getElem?_getD, List.getElem?_eq_getElem hlen]
        rfl
      rw [hblk] at he
      have hb := (wfT_entry_bounds hwf (by omega) e he).2
      exact ltB_of_le_of_lt hb (hbelow li' (by omega))

theorem flat_decompose (t : SsTable) (li : Nat) (h : li < t.blocks.length) :
    flatEntries t = (t.blocks.take li).flatten ++
      (blk t li ++ (t.blocks.drop (li + 1)).flatten) := by
  unfold flatEntries
  conv_lhs => rw [← List.take_append_drop li t.blocks]
  rw [List.flatten_append _ _]
  congr 1
  rw [List.drop_eq_getElem_cons h]
  rw [List.flatten_cons]
  congr 1
  unfold blk
  rw [List.getD_eq_getElem?_getD, List.getElem?_eq_getElem h]
  rfl

/-- Claim C5 (amended): under the table invariant, after
`create_and_seek_to_key(k)` (which always succeeds): if the inner block
iterator is valid then the current entry is exactly the first entry of
the SST with key ≥ k (so `key() ≥ k` and no qualifying entry precedes
it); and if k exceeds `last_key` the inner block iterator is invalid yet
`is_valid()` still returns true, because `blk_idx` (left at 0) still
references a loadable block. -/
theorem sst_seek_to_key_amended (t : SsTable) (k : Bytes)
    (hwf : wfTable t) :
    ∃ it', SsTableIterator.create_and_seek_to_key t k = some it' ∧
      (BlockIter.isValid it'.blk_iter = true →
        SsTableIterator.currentEntry it' =
          List.find? (fun e => leB k e.1) (flatEntries t)) ∧
      (ltB t.last_key k = true →
        BlockIter.isValid it'.blk_iter = false ∧
        SsTableIterator.is_valid t it' = true) := by
  obtain ⟨hmne, hmlen, hblocks, hchain, hfk0, hlkn⟩ := hwf
  have hwf' : wfTable t := ⟨hmne, hmlen, hblocks, hchain, hfk0, hlkn⟩
  have hn : 0 < t.block_meta.length := by
    cases hc : t.block_meta with
    | nil => exact absurd hc hmne
    | cons a b => simp
  have hb0 : t.blocks[0]? = some (blk t 0) := blocks_lookup (by omega)
  unfold SsTableIterator.create_and_seek_to_key
  rw [hb0]
  unfold SsTableIterator.seek_to_key
  dsimp only
  have hfirst_le_last : leB t.first_key t.last_key = true := by
    rw [hfk0, hlkn]
    exact leB_trans (wfT_fK_le_lK hwf' (by omega))
      (wfT_lK_mono hwf' (by omega) (by omega))
  by_cases hout : (ltB k t.first_key || ltB t.last_key k) = true
  · rw [if_pos hout]
    by_cases hbelow : ltB k t.first_key = true
    · -- k below first_key: block 0 seeks to its first entry
      rw [if_pos hbelow]
      rw [hb0]
      obtain ⟨hbne, hbwf, hbfk, hblk⟩ := hblocks 0 (by omega)
      obtain ⟨e0, tl0, hblk0⟩ : ∃ e tl, blk t 0 = e :: tl := by
        cases hc : blk t 0 with
        | nil => exact absurd hc hbne
        | cons e tl => exact ⟨e, tl, rfl⟩
      have hkey0 : e0.1 = fK t 0 := by
        rw [hbfk, hblk0]
        cases e0
        rfl
      have hpred0 : leB k e0.1 = true := by
        rw [hkey0, ← hfk0]
        exact ltB_le hbelow
      have hseek0 : blockSeekIdx (blk t 0) k = 0 := by
        rw [hblk0]
        obtain ⟨k0, v0⟩ := e0
        rw [blockSeekIdx]
        have hk0ne : k0 ≠ [] :=
          wfChild_key_ne_nil (hblk0 ▸ hbwf) (k0, v0) (by simp)
        rw [if_neg (by simpa using hk0ne)]
        rw [if_pos (by simpa using hpred0)]
      refine ⟨⟨⟨blk t 0, blockSeekIdx (blk t 0) k⟩, 0⟩, rfl, ?_, ?_⟩
      · intro _
        unfold SsTableIterator.currentEntry
        dsimp only
        rw [hseek0, hblk0]
        simp only [List.getElem?_cons_zero]
        have hflat : flatEntries t = blk t 0 ++ (t.blocks.drop 1).flatten := by
          have := flat_decompose t 0 (by omega)
          simpa using this
        rw [hflat, hblk0]
        rw [List.cons_append]
        simp [List.find?, hpred0]
      · intro habove
        exfalso
        have h1 : ltB k t.last_key = true :=
          ltB_of_lt_of_le hbelow hfirst_le_last
        have := ltB_trans h1 habove
        rw [ltB_irrefl] at this
        cases this
    · -- k above last_key: block 0 (blk_idx unchanged) seeks off the end
      rw [if_neg hbelow]
      rw [hb0]
      have habove : ltB t.last_key k = true := by
        rcases Bool.or_eq_true_iff.mp hout with h | h
        · exact absurd h hbelow
        · exact h
      obtain ⟨hbne, hbwf, hbfk, hblk⟩ := hblocks 0 (by omega)
      have hall_lt : ∀ e ∈ blk t 0, ltB e.1 k = true := by
        intro e he
        have hb := (wfT_entry_bounds hwf' (by omega) e he).2
        have hmono : leB (lK t 0) (lK t (t.block_meta.length - 1)) = true :=
          wfT_lK_mono hwf' (by omega) (by omega)
        have h1 : leB e.1 t.last_key = true := by
          rw [hlkn]
          exact leB_trans hb hmono
        exact ltB_of_le_of_lt h1 habove
      have hseek : blockSeekIdx (blk t 0) k = (blk t 0).length :=
        blockSeekIdx_all_lt hbwf hall_lt
      refine ⟨⟨⟨blk t 0, blockSeekIdx (blk t 0) k⟩, 0⟩, rfl, ?_, ?_⟩
      · intro hvalid
        exfalso
        unfold BlockIter.isValid at hvalid
        dsimp only at hvalid
        rw [hseek] at hvalid
        rw [List.getElem?_eq_none (by omega)] at hvalid
        cases hvalid
      · intro _
        constructor
        · unfold BlockIter.isValid
          dsimp only
          rw [hseek]
          rw [List.getElem?_eq_none (by omega)]
        · unfold SsTableIterator.is_valid
          dsimp only
          rw [Bool.or_eq_true]
          right
          simpa using hn
  · -- k within [first_key, last_key]: binary search
    rw [if_neg hout]
    have hout' : (ltB k t.first_key || ltB t.last_key k) = false := by
      simpa using hout
    rw [Bool.or_eq_false_iff] at hout'
    have hfirst : leB t.first_key k = true := leB_of_ltB_false hout'.1
    have hlast : leB k t.last_key = true := leB_of_ltB_false hout'.2
    have hjn : countLtLoop t.block_meta k < t.block_meta.length :=
      countLt_lt_length hwf' hlast
    have hj_at := countLtLoop_at t.block_meta k hjn
    have hj_below := countLtLoop_below t.block_meta k
    obtain ⟨li, hbin, hli⟩ := binSearchLoop_correct t k hwf' hfirst hlast
      (t.block_meta.length + 1) 0 (t.block_meta.length - 1)
      (by omega) (by omega) (Or.inl (by omega)) (by omega)
    rw [hbin]
    dsimp only
    rcases hli with hli | ⟨hli, hgap⟩
    · -- the search found the target block
      subst hli
      set js := countLtLoop t.block_meta k with hjs_def
      have hbjs : t.blocks[js]? = some (blk t js) := blocks_lookup (by omega)
      rw [hbjs]
      dsimp only
      obtain ⟨hbne, hbwf, hbfk, hblk⟩ := hblocks js (by omega)
      have hfind_ne : List.find? (fun e => leB k e.1) (blk t js) ≠ none := by
        intro hnone
        rw [List.find?_eq_none] at hnone
        obtain ⟨el, hel, helk⟩ := lastEntry_mem hbne
        apply hnone el hel
        rw [helk, ← hblk]
        exact hj_at
      obtain ⟨ef, hef⟩ : ∃ ef, List.find? (fun e => leB k e.1) (blk t js) =
          some ef := by
        cases hc : List.find? (fun e => leB k e.1) (blk t js) with
        | none => exact absurd hc hfind_ne
        | some ef => exact ⟨ef, rfl⟩
      have hef_mem : ef ∈ blk t js := List.mem_of_find?_eq_some hef
      have hvalid : BlockIter.isValid ⟨blk t js, blockSeekIdx (blk t js) k⟩ =
          true := by
        unfold BlockIter.isValid
        dsimp only
        rw [blockSeekIdx_eq_find hbwf, hef]
        have := wfChild_key_ne_nil hbwf ef hef_mem
        simpa using this
      rw [if_pos hvalid]
      refine ⟨⟨⟨blk t js, blockSeekIdx (blk t js) k⟩, 0⟩, rfl, ?_, ?_⟩
      · intro _
        unfold SsTableIterator.currentEntry
        dsimp only
        rw [blockSeekIdx_eq_find hbwf, hef]
        have hflat := flat_decompose t js (by omega)
        rw [hflat]
        rw [find?_append_of_forall_false ?hpre]
        case hpre =>
          intro e he
          have := flat_prefix_all_lt hwf' k js (by omega)
            (fun j hj => hj_below j hj) e he
          exact ltB_leB_false this
        exact (find?_append_of_some hef).symm
      · intro habove
        exfalso
        have := ltB_of_le_of_lt hlast habove
        rw [ltB_irrefl] at this
        cases this
    · -- gap: the block before the target; fall through to the next one
      set js := countLtLoop t.block_meta k with hjs_def
      have hli_lt : li < t.block_meta.length := by omega
      have hbli : t.blocks[li]? = some (blk t li) := blocks_lookup (by omega)
      rw [hbli]
      dsimp only
      obtain ⟨hbne, hbwf, hbfk, hblk⟩ := hblocks li (by omega)
      have hall_lt : ∀ e ∈ blk t li, ltB e.1 k = true := by
        intro e he
        have hb := (wfT_entry_bounds hwf' (by omega) e he).2
        exact ltB_of_le_of_lt hb (hj_below li (by omega))
      have hseek : blockSeekIdx (blk t li) k = (blk t li).length :=
        blockSeekIdx_all_lt hbwf hall_lt
      have hinvalid : BlockIter.isValid ⟨blk t li, blockSeekIdx (blk t li) k⟩ =
          false := by
        unfold BlockIter.isValid
        dsimp only
        rw [hseek]
        rw [List.getElem?_eq_none (by omega)]
      rw [if_neg (by simp [hinvalid])]
      have hbjs : t.blocks[li + 1]? = some (blk t (li + 1)) :=
        blocks_lookup (by omega)
      rw [hbjs]
      obtain ⟨hbne', hbwf', hbfk', hblk'⟩ := hblocks (li + 1) (by omega)
      obtain ⟨e0, tl0, hblk0⟩ : ∃ e tl, blk t (li + 1) = e :: tl := by
        cases hc : blk t (li + 1) with
        | nil => exact absurd hc hbne'
        | cons e tl => exact ⟨e, tl, rfl⟩
      have hkey0 : e0.1 = fK t (li + 1) := by
        rw [hbfk', hblk0]
        cases e0
        rfl
      have hpred0 : leB k e0.1 = true := by
        rw [hkey0]
        rw [← hli] at hgap
        exact ltB_le hgap
      refine ⟨⟨⟨blk t (li + 1), 0⟩, 0⟩, rfl, ?_, ?_⟩
      · intro _
        unfold SsTableIterator.currentEntry
        dsimp only
        rw [hblk0]
        simp only [List.getElem?_cons_zero]
        have hflat := flat_decompose t (li + 1) (by omega)
        rw [hflat]
        rw [find?_append_of_forall_false ?hpre]
        case hpre =>
          intro e he
          have := flat_prefix_all_lt hwf' k (li + 1) (by omega)
            (fun j hj => hj_below j (by omega)) e he
          exact ltB_leB_false this
        rw [hblk0, List.cons_append]
        simp [List.find?, hpred0]
      · intro habove
        exfalso
        have := ltB_of_le_of_lt hlast habove
        rw [ltB_irrefl] at this
        cases this

/-- Witness for the amended C5: the spec's gap-seek scenario (blocks
covering a..c and g..i, seeking "e" lands on "g"). -/
theorem sst_seek_to_key_amended_witness :
    ∃ it', SsTableIterator.create_and_seek_to_key
        (⟨[([97], [99]), ([103], [105])],
          [[([97], [48]), ([98], [49]), ([99], [50])],
           [([103], [51]), ([104], [52]), ([105], [53])]],
          [97], [105]⟩ : SsTable) [101] = some it' ∧
      (BlockIter.isValid it'.blk_iter = true →
        SsTableIterator.currentEntry it' =
          List.find? (fun e => leB [101] e.1)
            (flatEntries (⟨[([97], [99]), ([103], [105])],
              [[([97], [48]), ([98], [49]), ([99], [50])],
               [([103], [51]), ([104], [52]), ([105], [53])]],
              [97], [105]⟩ : SsTable))) ∧
      (ltB (⟨[([97], [99]), ([103], [105])],
          [[([97], [48]), ([98], [49]), ([99], [50])],
           [([103], [51]), ([104], [52]), ([105], [53])]],
          [97], [105]⟩ : SsTable).last_key [101] = true →
        BlockIter.isValid it'.blk_iter = false ∧
        SsTableIterator.is_valid (⟨[([97], [99]), ([103], [105])],
          [[([97], [48]), ([98], [49]), ([99], [50])],
           [([103], [51]), ([104], [52]), ([105], [53])]],
          [97], [105]⟩ : SsTable) it' = true) :=
  sst_seek_to_key_amended _ [101] (by decide)
